import Mathlib

/-!
# go-bfile-processing: Bloom filter, chunked reader and line processing

A shallow embedding of `filter.go`, `hasher.go`, `main.go` (`CountUniqueIPs` and its
read loop), `process_worker.go` (`processData` and the loop of `Start`) and `pool.go`,
followed by theorems about them.

Conventions.
* `[]byte` is `List UInt8`; `uint64` values are natural numbers kept below `2 ^ 64`
  by an explicit `% 2 ^ 64` wherever the Go code does arithmetic on them.
* A Go panic is the result `none` of an `Option`-valued function.
* The mutex of `BloomFilter` makes `Add` and `Test` atomic: each function below is one
  execution of the corresponding Go method, and several workers are modelled by the
  interleavings of these executions.
* What the Go library does (`bufio.Scanner`, channels, `murmur3`) follows its
  documentation; the `float64` expressions of `getOptimalParams` are parameters.
-/

namespace BFile

/-! ## Definitions -/

/-- Bytes of a Go byte slice. -/
abbrev Bytes := List UInt8

/-- The size of the `uint64` range. -/
def uint64Size : Nat := 2 ^ 64

/-- The line terminator, the byte of the Go rune literal for a newline. -/
def newline : UInt8 := 10

/-- The carriage return byte, stripped by `bufio.ScanLines`. -/
def carriageReturn : UInt8 := 13

/-! ### float64 values and their comparisons -/

/-- Values of Go's `float64`: not-a-number, the two infinities, and the finite values,
each of which is a dyadic rational `mant * 2 ^ exp`. -/
inductive Float64 where
  | nan : Float64
  | negInf : Float64
  | posInf : Float64
  | finite (mant : Int) (exp : Int) : Float64
  deriving DecidableEq, Repr

/-- Order on two dyadic rationals `m1 * 2 ^ e1 ≤ m2 * 2 ^ e2`, by scaling both to the
smaller exponent. -/
def dyadicLe (m1 e1 m2 e2 : Int) : Bool :=
  decide (m1 * 2 ^ (e1 - min e1 e2).toNat ≤ m2 * 2 ^ (e2 - min e1 e2).toNat)

/-- Strict order on two dyadic rationals, by scaling both to the smaller exponent. -/
def dyadicLt (m1 e1 m2 e2 : Int) : Bool :=
  decide (m1 * 2 ^ (e1 - min e1 e2).toNat < m2 * 2 ^ (e2 - min e1 e2).toNat)

/-- The comparison `a <= b` of Go on `float64`: false as soon as one side is NaN. -/
def Float64.le : Float64 → Float64 → Bool
  | .nan, _ => false
  | _, .nan => false
  | .negInf, _ => true
  | _, .posInf => true
  | .posInf, _ => false
  | _, .negInf => false
  | .finite m1 e1, .finite m2 e2 => dyadicLe m1 e1 m2 e2

/-- The comparison `a < b` of Go on `float64`: false as soon as one side is NaN. -/
def Float64.lt : Float64 → Float64 → Bool
  | .nan, _ => false
  | _, .nan => false
  | .posInf, _ => false
  | _, .negInf => false
  | .negInf, _ => true
  | _, .posInf => true
  | .finite m1 e1, .finite m2 e2 => dyadicLt m1 e1 m2 e2

/-- The comparison `a >= b` of Go on `float64`. -/
def Float64.ge (a b : Float64) : Bool := Float64.le b a

/-- The `float64` constant `0`. -/
def Float64.zero : Float64 := .finite 0 0

/-- The `float64` constant `1`. -/
def Float64.one : Float64 := .finite 1 0

/-- The two `float64` expressions of `getOptimalParams`, taken as parameters: the
functions of package `math` and the conversions between `uint64` and `float64` are
not part of the repository.
* `bitSetSize n p` is the value of
  `uint64(math.Ceil(-1 * float64(n) * math.Log(p) / math.Pow(math.Log(2), 2)))`;
* `hashCount m n` is the value of
  `uint64(math.Ceil((float64(m) / float64(n)) * math.Log(2)))`. -/
structure FloatArith where
  bitSetSize : Nat → Float64 → Nat
  hashCount : Nat → Nat → Nat

/-! ### hash functions -/

/-- A `hash.Hash64` instance as `Add` and `Test` use it, always right after `Reset()`:
`Write d` is the pair (bytes written, error is non-nil) returned by `Write(d)`, and
`Sum64 d` is the digest returned by `Sum64()` after `Reset(); Write(d)`.
The field `write_ok` is the contract of `hash.Hash` ("It never returns an error")
together with that of `io.Writer` (no error means all bytes were written). -/
structure Hash64 where
  Write : Bytes → Nat × Bool
  Sum64 : Bytes → Nat
  write_ok : ∀ d, Write d = (d.length, false)

/-- The interface `Hasher`: its only method `GetHashes(n)`. -/
abbrev Hasher := Nat → List Hash64

/-! ### filter.go -/

/-- The struct `BloomFilter` (without its mutex). -/
structure BloomFilter where
  bitSet : List Bool
  m : Nat
  k : Nat
  count : Nat
  hashes : List Hash64

/-- The function `getOptimalParams(n, p)`: bit set size and hash function count. -/
def getOptimalParams (fa : FloatArith) (n : Nat) (p : Float64) : Nat × Nat :=
  let m := fa.bitSetSize n p % uint64Size
  let m := if m == 0 then 1 else m
  let k := fa.hashCount m n % uint64Size
  let k := if k == 0 then 1 else k
  (m, k)

/-- The constructor `NewBloomFilter(elementNumbers, fpRate, hasher)`; a nil `hasher` is
`none`. The result is the returned error message or the returned filter. The panic
of `make([]bool, m)` on a length that cannot be allocated is not modelled: where the
result is a filter, the code returns that filter or panics in `make`. -/
def NewBloomFilter (fa : FloatArith) (elementNumbers : Nat) (fpRate : Float64)
    (hasher : Option Hasher) : Except String BloomFilter :=
  if elementNumbers == 0 then
    .error "number of elements must be grater than zero"
  else if fpRate.le Float64.zero || fpRate.ge Float64.one then
    .error "false positive rate value must be between 0 and 1"
  else
    match hasher with
    | none => .error "hasher cannot be nil"
    | some h =>
      let mk := getOptimalParams fa elementNumbers fpRate
      .ok { m := mk.1, k := mk.2, bitSet := List.replicate mk.1 false,
            hashes := h mk.2, count := 0 }

/-- The body shared by the loops of `Add` and `Test`: reset the hash function, write
`data` (panic when the write fails or is short) and reduce the digest modulo `m`
(panic on a zero divisor). -/
def hashValue (hashFunc : Hash64) (data : Bytes) (m : Nat) : Option Nat :=
  let r := hashFunc.Write data
  if r.2 || r.1 != data.length then none
  else if m == 0 then none
  else some ((hashFunc.Sum64 data % uint64Size) % m)

/-- The loop of `Add` over `bf.hashes`, threading the bit set; an index outside the
bit set is a panic. -/
def addLoop (m : Nat) (data : Bytes) : List Hash64 → List Bool → Option (List Bool)
  | [], bits => some bits
  | hashFunc :: rest, bits =>
    match hashValue hashFunc data m with
    | none => none
    | some pos =>
      if pos < bits.length then addLoop m data rest (bits.set pos true) else none

/-- The method `bf.Add(data)`: the filter after the call, `none` when it panics. -/
def BloomFilter.Add (bf : BloomFilter) (data : Bytes) : Option BloomFilter :=
  match addLoop bf.m data bf.hashes bf.bitSet with
  | none => none
  | some bits => some { bf with bitSet := bits, count := (bf.count + 1) % uint64Size }

/-- The loop of `Test` over `bf.hashes`. -/
def testLoop (m : Nat) (data : Bytes) (bits : List Bool) : List Hash64 → Option Bool
  | [] => some true
  | hashFunc :: rest =>
    match hashValue hashFunc data m with
    | none => none
    | some pos =>
      match bits[pos]? with
      | none => none
      | some false => some false
      | some true => testLoop m data bits rest

/-- The method `bf.Test(data)`: the returned boolean, `none` when it panics. The filter
state is left as it was. -/
def BloomFilter.Test (bf : BloomFilter) (data : Bytes) : Option Bool :=
  testLoop bf.m data bf.bitSet bf.hashes

/-- The method `bf.Count()`. -/
def BloomFilter.Count (bf : BloomFilter) : Nat := bf.count

/-- The bit position `hashFunc.Sum64() % bf.m` that `Add` and `Test` compute for a key. -/
def bitPos (m : Nat) (data : Bytes) (hashFunc : Hash64) : Nat :=
  (hashFunc.Sum64 data % uint64Size) % m

/-- Well-formed filter states: `m` and `k` are positive, the bit set has length `m`,
and the counter is a `uint64`. -/
def BloomFilter.WF (bf : BloomFilter) : Prop :=
  1 ≤ bf.m ∧ 1 ≤ bf.k ∧ bf.bitSet.length = bf.m ∧ bf.count < uint64Size

/-! ### process_worker.go -/

/-- The constant `bufio.MaxScanTokenSize`: the largest buffer of a `bufio.Scanner`. -/
def maxScanTokenSize : Nat := 64 * 1024

/-- The helper `dropCR` of `bufio.ScanLines`: drop one trailing carriage return. -/
def dropCR (data : Bytes) : Bytes :=
  if data.getLast? = some carriageReturn then data.dropLast else data

/-- The tokens that successive `scanner.Scan()` calls yield on `data`, for the default
split function `bufio.ScanLines`; `line` holds the bytes of the current line read so
far. A line ends at a newline or, when non-empty, at the end of the data; it loses one
trailing carriage return. A line that does not fit the scanner's buffer with its
terminator makes `Scan` return false (token too long), which ends the scan. -/
def scanFrom : Bytes → Bytes → List Bytes
  | [], line =>
    if line.isEmpty then []
    else if line.length < maxScanTokenSize then [dropCR line] else []
  | b :: rest, line =>
    if b = newline then
      if line.length < maxScanTokenSize then dropCR line :: scanFrom rest [] else []
    else scanFrom rest (line ++ [b])

/-- The tokens of `bufio.NewScanner(bytes.NewBuffer(data))`, in order. -/
def scanLines (data : Bytes) : List Bytes := scanFrom data []

/-- The guarded step of `processData`: `if !w.bf.Test(ip) then w.bf.Add(ip)`. -/
def testThenAdd (bf : BloomFilter) (ip : Bytes) : Option BloomFilter :=
  match bf.Test ip with
  | none => none
  | some true => some bf
  | some false => bf.Add ip

/-- The loop body of `processData` over the scanned lines: an empty line is skipped,
any other line goes through the guarded step. -/
def processLines : BloomFilter → List Bytes → Option BloomFilter
  | bf, [] => some bf
  | bf, ip :: rest =>
    if ip.length = 0 then processLines bf rest
    else
      match testThenAdd bf ip with
      | none => none
      | some bf' => processLines bf' rest

/-- The method `w.processData(data)` on the worker's filter. -/
def processData (bf : BloomFilter) (data : Bytes) : Option BloomFilter :=
  processLines bf (scanLines data)

/-- The lines of a chunk that `processData` hands to `Test`: the scanned tokens that
are not empty. -/
def chunkKeys (data : Bytes) : List Bytes :=
  (scanLines data).filter (fun ip => ip.length ≠ 0)

/-! ### main.go: the read loop of CountUniqueIPs -/

/-- The error value returned by a read: `io.EOF` or some other error. -/
inductive ReadErr where
  | eof : ReadErr
  | other : ReadErr
  deriving DecidableEq, Repr

/-- One result of `file.Read(buf)`: the bytes stored at the front of `buf` (their
number is the returned `n`) and the returned error (`none` is nil). -/
structure ReadResult where
  data : Bytes
  err : Option ReadErr
  deriving DecidableEq, Repr

/-- The buffer after `buf := make([]byte, chunkSize)` and a read that stored `data`:
the bytes read, then the zero bytes `make` left behind them. -/
def fillBuf (chunkSize : Nat) (data : Bytes) : Bytes :=
  data.take chunkSize ++ List.replicate (chunkSize - data.length) 0

/-- The backward scan `for i := n - 1; i >= 0; i--` for the last newline of `buf[0:n]`:
`findEnd buf n j` runs the loop from `i = j - 1` and returns the final value of `end`,
which starts as `n`. -/
def findEnd (buf : Bytes) (n : Nat) : Nat → Nat
  | 0 => n
  | i + 1 => if buf[i]? = some newline then i + 1 else findEnd buf n i

/-- The `for` loop of `CountUniqueIPs` over the successive results of `file.Read`,
started with the residual `ending`; once the listed results are used up the source
reports `(0, io.EOF)`. Returns the chunks passed to `pool.Add`, in order, and the
residual `ending` left when the loop breaks. -/
def readLoop (chunkSize : Nat) : List ReadResult → Bytes → List Bytes × Bytes
  | [], ending => ([], ending)
  | r :: rest, ending =>
    let n := min r.data.length chunkSize
    if n = 0 ∧ r.err = some ReadErr.eof then ([], ending)
    else
      let buf := fillBuf chunkSize r.data
      let stop := findEnd buf n n
      let out := readLoop chunkSize rest (buf.drop stop)
      ((ending ++ buf.take stop) :: out.1, out.2)

/-- All chunks `CountUniqueIPs` passes to `pool.Add`: those of the loop, then the
residual when `len(ending) > 0`. -/
def deliveredChunks (chunkSize : Nat) (reads : List ReadResult) : List Bytes :=
  let out := readLoop chunkSize reads []
  if out.2.length > 0 then out.1 ++ [out.2] else out.1

/-- The results of reading a regular file with the given content through a buffer of
`chunkSize` bytes: full blocks while bytes remain (the last one may be short), then
`(0, io.EOF)`. The first argument bounds the number of reads. -/
def fileReads (chunkSize : Nat) : Nat → Bytes → List ReadResult
  | 0, _ => [⟨[], some ReadErr.eof⟩]
  | fuel + 1, content =>
    if content.isEmpty then [⟨[], some ReadErr.eof⟩]
    else ⟨content.take chunkSize, none⟩ :: fileReads chunkSize fuel (content.drop chunkSize)

/-- The reads of a whole file: one read per byte is always enough when `chunkSize ≥ 1`. -/
def readFile (chunkSize : Nat) (content : Bytes) : List ReadResult :=
  fileReads chunkSize content.length content

/-- The lines the workers see for a file read with the given block size: the keys of
every delivered chunk, in delivery order. -/
def readerLines (chunkSize : Nat) (content : Bytes) : List Bytes :=
  (deliveredChunks chunkSize (readFile chunkSize content)).flatMap chunkKeys

/-- The scanner tokens, empty ones included, of every delivered chunk. -/
def readerTokens (chunkSize : Nat) (content : Bytes) : List Bytes :=
  (deliveredChunks chunkSize (readFile chunkSize content)).flatMap scanLines

/-! ### concrete values used in examples -/

/-- A small hash function: the seed plus the sum of the bytes. -/
def sumHash (seed : Nat) : Hash64 where
  Write := fun d => (d.length, false)
  Sum64 := fun d => seed + (d.map UInt8.toNat).sum
  write_ok := fun _ => rfl

/-- A hasher returning `n` copies of `sumHash`, seeded by their index. -/
def sumHasher : Hasher := fun n => (List.range n).map sumHash

/-- A stand-in for the `float64` expressions: 15 bits per element, 2 hash functions. -/
def sampleArith : FloatArith where
  bitSetSize := fun n _ => 15 * n
  hashCount := fun _ _ => 2

/-- The `float64` nearest to `0.001`. -/
def fpRateMilli : Float64 := .finite 4611686018427388 (-62)

/-! ### operations and runs -/

/-- All bits that `Add` sets for key `x` are set in `bf`. -/
def BloomFilter.covers (bf : BloomFilter) (x : Bytes) : Prop :=
  ∀ h ∈ bf.hashes, bf.bitSet[bitPos bf.m x h]? = some true

/-- An operation on a filter. -/
inductive Op where
  | add (key : Bytes) : Op
  | test (key : Bytes) : Op
  | count : Op

/-- Whether an operation is an `Add`. -/
def Op.isAdd : Op → Bool
  | .add _ => true
  | _ => false

/-- The filter after one operation, `none` when it panics; `Test` and `Count` only read. -/
def step (bf : BloomFilter) : Op → Option BloomFilter
  | .add key => bf.Add key
  | .test key => (bf.Test key).map (fun _ => bf)
  | .count => some bf

/-- The filter after a sequence of operations. -/
def run : BloomFilter → List Op → Option BloomFilter
  | bf, [] => some bf
  | bf, op :: rest =>
    match step bf op with
    | none => none
    | some bf' => run bf' rest

/-- A sequence of guarded steps `if !Test(key) then Add(key)`, one per key, in order. -/
def testThenAddAll : BloomFilter → List Bytes → Option BloomFilter
  | bf, [] => some bf
  | bf, key :: rest =>
    match testThenAdd bf key with
    | none => none
    | some bf' => testThenAddAll bf' rest

/-- The fresh filter `NewBloomFilter` builds from the example values: 150 bits, 2 hash
functions. -/
def sampleFilter : BloomFilter where
  bitSet := List.replicate 150 false
  m := 150
  k := 2
  count := 0
  hashes := sumHasher 2

/-- A one-bit filter whose counter has reached the largest `uint64`. -/
def maxedFilter : BloomFilter where
  bitSet := [false]
  m := 1
  k := 1
  count := uint64Size - 1
  hashes := [sumHash 0]

/-- A condition on a stand-in for the two `float64` expressions of `getOptimalParams`,
at one point only: at the arguments `n`, `p = mant * 2 ^ exp` and `m` it gives the
values of the real formulas the expressions are written after. It says nothing of the
code: it fixes, for an example, which sizing the example is about. -/
def FloatArith.ExactAt (fa : FloatArith) (n : Nat) (mant exp : Int) (m : Nat) : Prop :=
  fa.bitSetSize n (Float64.finite mant exp) =
      ⌈-1 * (n : ℝ) * Real.log ((mant : ℝ) * (2 : ℝ) ^ exp) / Real.log 2 ^ 2⌉₊ ∧
    fa.hashCount m n = ⌈(m : ℝ) / (n : ℝ) * Real.log 2⌉₊

/-- A stand-in for the `float64` expressions: 15 bits and 2 hash functions. -/
def halfArith : FloatArith where
  bitSetSize := fun _ _ => 15
  hashCount := fun _ _ => 2

/-! ### hasher.go -/

/-- The size of the `uint32` range. -/
def uint32Size : Nat := 2 ^ 32

/-- The loop `for i := 0; uint64(i) < n; i++` of `GetHashes` from index `i` on, with
`todo` indices left: `hashers[i] = murmur3.New64WithSeed(uint32(i))`. The constructor
`murmur3.New64WithSeed` of the library is the parameter `New64WithSeed`. -/
def getHashesFrom (New64WithSeed : Nat → Hash64) : Nat → Nat → List Hash64
  | 0, _ => []
  | todo + 1, i => New64WithSeed (i % uint32Size) :: getHashesFrom New64WithSeed todo (i + 1)

/-- The method `h.GetHashes(n)` of `Mur3Hasher`. -/
def Mur3Hasher.GetHashes (New64WithSeed : Nat → Hash64) (n : Nat) : List Hash64 :=
  getHashesFrom New64WithSeed n 0

/-! ### main.go: CountUniqueIPs -/

/-- The chunks of the queue processed one after the other, in delivery order, each by
`processData`: the pool with its workers run as one sequential consumer. -/
def processChunks : BloomFilter → List Bytes → Option BloomFilter
  | bf, [] => some bf
  | bf, data :: rest =>
    match processData bf data with
    | none => none
    | some bf' => processChunks bf' rest

/-- The buffers of the iterations that the read loop runs: one zero-filled buffer per
read, up to the read that breaks the loop. -/
def loopBuffers (chunkSize : Nat) : List ReadResult → List Bytes
  | [] => []
  | r :: rest =>
    if min r.data.length chunkSize = 0 ∧ r.err = some ReadErr.eof then []
    else fillBuf chunkSize r.data :: loopBuffers chunkSize rest

/-- The constant `bfElementsCount` of `main.go`. -/
def bfElementsCount : Nat := 2 ^ 16

/-- The function `CountUniqueIPs(filename)` for a block size `chunkSize`: `file` is the
error of `os.Open` or the results of the successive reads of the opened file. The
result is the returned pair (count, error), `none` is a panic. The chunks are
processed in delivery order by `processChunks`. -/
def CountUniqueIPsWith (chunkSize : Nat) (fa : FloatArith) (hasher : Option Hasher)
    (file : Except ReadErr (List ReadResult)) : Option (Nat × Option ReadErr) :=
  match NewBloomFilter fa bfElementsCount fpRateMilli hasher with
  | .error _ => none
  | .ok bloomFilter =>
    match file with
    | .error err => some (0, some err)
    | .ok reads =>
      match processChunks bloomFilter (deliveredChunks chunkSize reads) with
      | none => none
      | some bf => some (bf.Count, none)

/-- The constant `chunkSize` of `main.go`: 100 MB. -/
def chunkSize : Nat := 1000000 * 100

/-- The function `CountUniqueIPs(filename)` with the block size of `main.go`. -/
def CountUniqueIPs (fa : FloatArith) (hasher : Option Hasher)
    (file : Except ReadErr (List ReadResult)) : Option (Nat × Option ReadErr) :=
  CountUniqueIPsWith chunkSize fa hasher file

/-! ### pool.go -/

/-- A channel `chan struct{}` as `Finish` uses it: the number of values sent on it and
whether it is closed. -/
structure SignalChan where
  sent : Nat
  closed : Bool
  deriving DecidableEq, Repr

/-- The struct `Pool`: the channel `in` is its queue of chunks and its closed flag;
the wait group and the mutex are not fields of the model. -/
structure Pool where
  workersCount : Nat
  inCap : Nat
  inQueue : List Bytes
  inClosed : Bool
  done : SignalChan
  workersClosers : List SignalChan
  finished : Bool
  bf : BloomFilter

/-- The constructor `NewPool(workersCount, readBufferSize, bf)`. -/
def NewPool (workersCount readBufferSize : Nat) (bf : BloomFilter) : Pool where
  workersCount := workersCount
  inCap := readBufferSize
  inQueue := []
  inClosed := false
  done := ⟨0, false⟩
  workersClosers := []
  finished := false
  bf := bf

/-- The loop of `Start`, with `todo` iterations left: each one makes a closer channel
and appends it to `workersClosers` (and starts a worker on it). -/
def startLoop : Nat → List SignalChan → List SignalChan
  | 0, closers => closers
  | todo + 1, closers => startLoop todo (closers ++ [⟨0, false⟩])

/-- The method `p.Start()`. -/
def Pool.Start (p : Pool) : Pool :=
  { p with workersClosers := startLoop p.workersCount p.workersClosers }

/-- The method `p.Add(data)`: the send `p.in <- data`, a panic on a closed channel. A
send that has to wait for room in the queue is not modelled: the chunk is queued. -/
def Pool.Add (p : Pool) (data : Bytes) : Option Pool :=
  if p.inClosed then none else some { p with inQueue := p.inQueue ++ [data] }

/-- A sequence of `p.Add` calls, one per chunk, in order. -/
def Pool.addChunks : Pool → List Bytes → Option Pool
  | p, [] => some p
  | p, data :: rest =>
    match p.Add data with
    | none => none
    | some p' => Pool.addChunks p' rest

/-- The send `c <- struct{}{}`: a panic on a closed channel. -/
def sendSignal (c : SignalChan) : Option SignalChan :=
  if c.closed then none else some { c with sent := c.sent + 1 }

/-- The call `close(c)`: a panic on a channel that is closed already. -/
def closeChan (c : SignalChan) : Option SignalChan :=
  if c.closed then none else some { c with closed := true }

/-- The loop of `Finish`: one stop signal sent on every closer, in order. -/
def sendAll : List SignalChan → Option (List SignalChan)
  | [] => some []
  | c :: rest =>
    match sendSignal c with
    | none => none
    | some c' =>
      match sendAll rest with
      | none => none
      | some rest' => some (c' :: rest')

/-- The deferred calls `close(p.workersClosers[i])` of `Finish`, run when it returns,
the last deferred first. -/
def closeAll : List SignalChan → Option (List SignalChan)
  | [] => some []
  | c :: rest =>
    match closeAll rest with
    | none => none
    | some rest' =>
      match closeChan c with
      | none => none
      | some c' => some (c' :: rest')

/-- What happens to the filter and the queue until `p.wg.Wait()` returns: the workers,
when there is at least one, drain the queue in order and stop; with no worker the wait
returns at once and the queue and the filter are left as they are. -/
def Pool.drain (p : Pool) : Option (BloomFilter × List Bytes) :=
  if p.workersClosers.isEmpty then some (p.bf, p.inQueue)
  else
    match processChunks p.bf p.inQueue with
    | none => none
    | some bf => some (bf, [])

/-- The method `p.Finish()`: nothing when `p.finished` is set; otherwise the stop
signals, the wait `p.wg.Wait()`, the flag, and the deferred calls that close the
closers, `p.in` and `p.done`. -/
def Pool.Finish (p : Pool) : Option Pool :=
  if p.finished then some p
  else
    match sendAll p.workersClosers with
    | none => none
    | some signalled =>
      match p.drain with
      | none => none
      | some drained =>
        match closeAll signalled with
        | none => none
        | some closers =>
          if p.inClosed then none
          else
            match closeChan p.done with
            | none => none
            | some done =>
              some { p with workersClosers := closers, inQueue := drained.2, inClosed := true,
                            done := done, finished := true, bf := drained.1 }

/-! ### process_worker.go: the loop of Start -/

/-- The state of one worker in its loop, with the channels it reads.
* `queue`: the chunks waiting in the channel `in`, shared with the other workers;
* `stopPending`: `Finish` is sending the stop signal on the channel `done` of the worker;
* `stopSignal`: the field `w.stopSignal`;
* `inDefault`: the `select` has taken its `default` case and the `if` comes next;
* `exited`: `w.wg.Done()` was called and `Start` returned;
* `enqueued`, `dequeued`: all chunks sent on, and received from, the channel so far;
* `processed`: the chunks this worker passed to `processData`. -/
structure WorkerState where
  queue : List Bytes
  stopPending : Bool
  stopSignal : Bool
  inDefault : Bool
  exited : Bool
  enqueued : List Bytes
  dequeued : List Bytes
  processed : List Bytes
  deriving DecidableEq, Repr

/-- What can happen next: the three cases of the `select` of the worker and the `if`
of its `default` case, and the moves of the others on the channels. -/
inductive Event where
  | recv : Event
  | stop : Event
  | dflt : Event
  | check : Event
  | put (data : Bytes) : Event
  | take : Event
  | signal : Event
  deriving DecidableEq, Repr

/-- A worker that starts on a queue holding the chunks `waiting`. -/
def WorkerState.init (waiting : List Bytes) : WorkerState where
  queue := waiting
  stopPending := false
  stopSignal := false
  inDefault := false
  exited := false
  enqueued := waiting
  dequeued := []
  processed := []

/-- One step, `none` when the event cannot happen in the state.
* `recv` is `case data := <-w.in: w.processData(data)`, ready when a chunk waits;
* `stop` is `case <-w.done: w.stopSignal = true`, ready when the signal is being sent;
* `dflt` is the `default` case, taken when no other case is ready;
* `check` is `if w.stopSignal && len(w.in) == 0 { w.wg.Done(); return }`;
* `put` is a send of the reader, `take` a receive of another worker, `signal` the
  send of `Finish` on the channel `done` of this worker. -/
def WorkerState.next (s : WorkerState) : Event → Option WorkerState
  | .recv =>
    if s.exited || s.inDefault then none
    else
      match s.queue with
      | [] => none
      | data :: rest =>
        some { s with queue := rest, dequeued := s.dequeued ++ [data],
                      processed := s.processed ++ [data] }
  | .stop =>
    if s.exited || s.inDefault then none
    else if s.stopPending then some { s with stopPending := false, stopSignal := true }
    else none
  | .dflt =>
    if s.exited || s.inDefault then none
    else if s.queue.isEmpty && !s.stopPending then some { s with inDefault := true }
    else none
  | .check =>
    if s.exited || !s.inDefault then none
    else if s.stopSignal && s.queue.length == 0 then
      some { s with inDefault := false, exited := true }
    else some { s with inDefault := false }
  | .put data => some { s with queue := s.queue ++ [data], enqueued := s.enqueued ++ [data] }
  | .take =>
    match s.queue with
    | [] => none
    | data :: rest => some { s with queue := rest, dequeued := s.dequeued ++ [data] }
  | .signal =>
    if s.stopPending then none else some { s with stopPending := true }

/-- The state after a sequence of events, `none` when one of them cannot happen. -/
def WorkerState.runEvents : WorkerState → List Event → Option WorkerState
  | s, [] => some s
  | s, e :: rest =>
    match s.next e with
    | none => none
    | some s' => WorkerState.runEvents s' rest

/-- The enumerated worker states of the specification. -/
inductive WorkerPhase where
  | Running : WorkerPhase
  | Draining : WorkerPhase
  | Stopped : WorkerPhase
  deriving DecidableEq, Repr

/-- The phase of a worker: stopped once it has exited, draining once it has seen its
stop signal, running before. -/
def WorkerState.phase (s : WorkerState) : WorkerPhase :=
  if s.exited then .Stopped else if s.stopSignal then .Draining else .Running

/-- The account of the channel: every chunk sent on it was received or still waits, in
order. -/
def WorkerState.Consistent (s : WorkerState) : Prop :=
  s.enqueued = s.dequeued ++ s.queue

/-- A worker that has received the chunk `"1\n"`, has seen its stop signal and has
taken the `default` case. -/
def sampleDraining : WorkerState :=
  ⟨[], false, true, true, false, [[49, 10]], [[49, 10]], [[49, 10]]⟩

/-- The same worker after it has exited. -/
def sampleStopped : WorkerState :=
  ⟨[], false, true, false, true, [[49, 10]], [[49, 10]], [[49, 10]]⟩

/-! ### the library murmur3 -/

/-- The little-endian number of a few bytes. -/
def littleEndian : Bytes → Nat
  | [] => 0
  | b :: rest => b.toNat + 256 * littleEndian rest

/-- The function `bits.RotateLeft64(x, r)` on a `uint64`, for `0 < r < 64`. -/
def rotateLeft64 (x r : Nat) : Nat := ((x <<< r) ||| (x >>> (64 - r))) % uint64Size

/-- The constant `c1_128` of the library. -/
def c1_128 : Nat := 0x87c37b91114253d5

/-- The constant `c2_128` of the library. -/
def c2_128 : Nat := 0x4cf5ad432745937f

/-- The mixing of a first half block: `k1 *= c1; k1 = rotl(k1, 31); k1 *= c2`. -/
def mixK1 (k1 : Nat) : Nat :=
  (rotateLeft64 ((k1 * c1_128) % uint64Size) 31 * c2_128) % uint64Size

/-- The mixing of a second half block: `k2 *= c2; k2 = rotl(k2, 33); k2 *= c1`. -/
def mixK2 (k2 : Nat) : Nat :=
  (rotateLeft64 ((k2 * c2_128) % uint64Size) 33 * c1_128) % uint64Size

/-- The loop of `bmix` over the blocks of 16 bytes, with `nblocks` of them left: the
running hash `(h1, h2)` after them. -/
def bmix : Nat → Nat × Nat → Bytes → Nat × Nat
  | 0, h, _ => h
  | nblocks + 1, (h1, h2), p =>
    let k1 := littleEndian (p.take 8)
    let k2 := littleEndian ((p.drop 8).take 8)
    let h1 := h1 ^^^ mixK1 k1
    let h1 := rotateLeft64 h1 27
    let h1 := (h1 + h2) % uint64Size
    let h1 := (h1 * 5 + 0x52dce729) % uint64Size
    let h2 := h2 ^^^ mixK2 k2
    let h2 := rotateLeft64 h2 31
    let h2 := (h2 + h1) % uint64Size
    let h2 := (h2 * 5 + 0x38495ab5) % uint64Size
    bmix nblocks (h1, h2) (p.drop 16)

/-- The finalizer `fmix64` of the library. -/
def fmix64 (k : Nat) : Nat :=
  let k := k ^^^ (k >>> 33)
  let k := (k * 0xff51afd7ed558ccd) % uint64Size
  let k := k ^^^ (k >>> 33)
  let k := (k * 0xc4ceb9fe1a85ec53) % uint64Size
  k ^^^ (k >>> 33)

/-- The pair returned by `Sum128()` of a `digest128` made with `seed`, after
`Reset(); Write(data)`: the 128-bit MurmurHash3 for 64-bit platforms. The library
`github.com/spaolacci/murmur3` is not part of the repository; this follows its
published algorithm, and `murmur3_test_vectors` checks it on the library's own test
vectors. -/
def Sum128 (seed : Nat) (data : Bytes) : Nat × Nat :=
  let nblocks := data.length / 16
  let h := bmix nblocks (seed, seed) data
  let tail := data.drop (nblocks * 16)
  let h2 := if tail.length > 8 then h.2 ^^^ mixK2 (littleEndian (tail.drop 8)) else h.2
  let h1 := if tail.length > 0 then h.1 ^^^ mixK1 (littleEndian (tail.take 8)) else h.1
  let h1 := h1 ^^^ data.length
  let h2 := h2 ^^^ data.length
  let h1 := (h1 + h2) % uint64Size
  let h2 := (h2 + h1) % uint64Size
  let h1 := fmix64 h1
  let h2 := fmix64 h2
  let h1 := (h1 + h2) % uint64Size
  let h2 := (h2 + h1) % uint64Size
  (h1, h2)

/-- The constructor `murmur3.New64WithSeed(seed)`: its `Sum64()` is the first half of
`Sum128()`, and its `Write` takes all bytes without an error. -/
def murmur3.New64WithSeed (seed : Nat) : Hash64 where
  Write := fun d => (d.length, false)
  Sum64 := fun d => (Sum128 seed d).1
  write_ok := fun _ => rfl

/-- The hasher `MurMur3Hasher()` of `hasher.go` over the library. -/
def MurMur3Hasher : Hasher := Mur3Hasher.GetHashes murmur3.New64WithSeed

/-- The filter of 144 bits and 10 murmur3 functions: what `NewBloomFilter` builds for
10 elements at the rate 0.001. -/
def exampleFilter : BloomFilter where
  bitSet := List.replicate 144 false
  m := 144
  k := 10
  count := 0
  hashes := MurMur3Hasher 10

/-- The input lines of the end-to-end example: `1.1.1.1`, `2.2.2.2`, `1.1.1.1` and an
empty line. -/
def exampleLines : List Bytes :=
  [[49, 46, 49, 46, 49, 46, 49], [50, 46, 50, 46, 50, 46, 50], [49, 46, 49, 46, 49, 46, 49], []]

/-- A stand-in for the `float64` expressions that is exact at `N = 10`, `p = 0.001`. -/
def milliArith : FloatArith where
  bitSetSize := fun _ _ => 144
  hashCount := fun _ _ => 10

/-! ### several workers on one filter -/

/-- What one worker has left to do: the key it has tested with the result false and
not added yet, and the lines it has not looked at yet. -/
structure WorkerTask where
  pending : Option Bytes
  todo : List Bytes
  deriving DecidableEq, Repr

/-- The shared filter and the tasks of the workers. -/
structure PoolRun where
  bf : BloomFilter
  workers : List WorkerTask

/-- The next action of worker `w` on the shared filter, `none` when it panics. `Test`
and `Add` each run under the mutex of the filter, so each is one action: the worker
adds its pending key, or skips an empty line, or tests its next line and keeps it as
pending when the test is false. A worker with nothing left does nothing. -/
def PoolRun.act (st : PoolRun) (w : Nat) : Option PoolRun :=
  match st.workers[w]? with
  | none => some st
  | some task =>
    match task.pending with
    | some ip =>
      match st.bf.Add ip with
      | none => none
      | some bf => some ⟨bf, st.workers.set w ⟨none, task.todo⟩⟩
    | none =>
      match task.todo with
      | [] => some st
      | ip :: rest =>
        if ip.length = 0 then some ⟨st.bf, st.workers.set w ⟨none, rest⟩⟩
        else
          match st.bf.Test ip with
          | none => none
          | some true => some ⟨st.bf, st.workers.set w ⟨none, rest⟩⟩
          | some false => some ⟨st.bf, st.workers.set w ⟨some ip, rest⟩⟩

/-- The actions of the workers in the order of a schedule: the list of the workers
that act, one action each. -/
def PoolRun.schedule : PoolRun → List Nat → Option PoolRun
  | st, [] => some st
  | st, w :: rest =>
    match st.act w with
    | none => none
    | some st' => PoolRun.schedule st' rest

/-- Every worker is through with its lines. -/
def PoolRun.Finished (st : PoolRun) : Prop :=
  ∀ task ∈ st.workers, task.pending = none ∧ task.todo = []

/-- The start of a run: a filter and the lines each worker will process. -/
def PoolRun.start (bf : BloomFilter) (lines : List (List Bytes)) : PoolRun :=
  ⟨bf, lines.map fun todo => ⟨none, todo⟩⟩

/-- No key of the list can be a false positive: each has a bit position, under one of
the hash functions, that no other key of the list is mapped to by any of them. -/
def PrivateBits (m : Nat) (hashes : List Hash64) (keys : List Bytes) : Prop :=
  ∀ x ∈ keys, ∃ h ∈ hashes, ∀ y ∈ keys, y ≠ x → ∀ h' ∈ hashes, bitPos m y h' ≠ bitPos m x h

/-- A stand-in for the `float64` expressions that is exact at `N = 1`, `p = 0.75`. -/
def tinyArith : FloatArith where
  bitSetSize := fun _ _ => 1
  hashCount := fun _ _ => 1

/-- The keys of the input: the lines of all workers that are not empty. -/
def keysOf (lines : List (List Bytes)) : List Bytes :=
  lines.flatten.filter (fun ip => ip.length ≠ 0)

/-- The guarded steps a worker still has to make: one for its pending key and one for
each of its lines that is not empty. -/
def taskWork (task : WorkerTask) : Nat :=
  (if task.pending.isSome then 1 else 0) + (task.todo.filter (fun ip => ip.length ≠ 0)).length

/-- The invariant of a run on the keys `keys`, where `added` lists the keys added so
far: the filter is well formed with the same `m` and hash functions; `Count()` is the
number of keys added and cannot overflow; every set bit is a bit of an added key;
every key was added, or is pending, or is still to look at. -/
structure RunInv (m : Nat) (hashes : List Hash64) (keys : List Bytes) (st : PoolRun)
    (added : List Bytes) : Prop where
  wf : st.bf.WF
  hm : st.bf.m = m
  hh : st.bf.hashes = hashes
  sub : ∀ a ∈ added, a ∈ keys
  count : st.bf.count = added.length
  bound : added.length + (st.workers.map taskWork).sum ≤ keys.length
  bits : ∀ i : Nat, st.bf.bitSet[i]? = some true → ∃ a ∈ added, ∃ h ∈ hashes, bitPos m a h = i
  seen : ∀ x ∈ keys, x ∈ added ∨
    ∃ (j : Nat) (task : WorkerTask),
      st.workers[j]? = some task ∧ (task.pending = some x ∨ x ∈ task.todo)
  own : ∀ (j : Nat) (task : WorkerTask), st.workers[j]? = some task →
    (∀ x, task.pending = some x → x ∈ keys) ∧ (∀ x ∈ task.todo, x.length ≠ 0 → x ∈ keys)

/-! ## Theorems -/

/-! ### lemmas on the filter -/

/-- With a positive `m` the hashing step returns the bit position. -/
theorem hashValue_eq (hashFunc : Hash64) (data : Bytes) {m : Nat} (hm : 1 ≤ m) :
    hashValue hashFunc data m = some (bitPos m data hashFunc) := by
  have hm0 : m ≠ 0 := by omega
  simp [hashValue, hashFunc.write_ok, bitPos, hm0]

/-- With a positive `m` the bit position is an index below `m`. -/
theorem bitPos_lt (data : Bytes) (hashFunc : Hash64) {m : Nat} (hm : 1 ≤ m) :
    bitPos m data hashFunc < m :=
  Nat.mod_lt _ (by omega)

/-- The loop of `Add` returns, keeps the length, and sets exactly the hashed positions. -/
theorem addLoop_spec {m : Nat} (hm : 1 ≤ m) (data : Bytes) :
    ∀ (hs : List Hash64) (bits : List Bool), bits.length = m →
      ∃ bits', addLoop m data hs bits = some bits' ∧ bits'.length = m ∧
        ∀ i, bits'[i]? =
          if hs.any (fun h => bitPos m data h == i) then some true else bits[i]? := by
  intro hs
  induction hs with
  | nil => intro bits hlen; exact ⟨bits, rfl, hlen, by simp⟩
  | cons h rest ih =>
    intro bits hlen
    have hp : bitPos m data h < bits.length := by
      rw [hlen]; exact bitPos_lt data h hm
    obtain ⟨bits', hrun, hlen', hget⟩ := ih (bits.set (bitPos m data h) true) (by simpa using hlen)
    refine ⟨bits', ?_, hlen', ?_⟩
    · simp [addLoop, hashValue_eq h data hm, hp, hrun]
    · intro i
      rw [hget i, List.getElem?_set]
      by_cases hi : bitPos m data h = i
      · subst hi; simp [hp]
      · simp [hi]

/-- The loop of `Test` returns, and returns true exactly when every hashed bit is set. -/
theorem testLoop_spec {m : Nat} (hm : 1 ≤ m) (data : Bytes) (bits : List Bool)
    (hlen : bits.length = m) :
    ∀ hs : List Hash64,
      testLoop m data bits hs = some (hs.all (fun h => bits[bitPos m data h]? == some true)) := by
  intro hs
  induction hs with
  | nil => rfl
  | cons h rest ih =>
    have hp : bitPos m data h < bits.length := by
      rw [hlen]; exact bitPos_lt data h hm
    simp only [testLoop, hashValue_eq h data hm, List.all_cons]
    rw [List.getElem?_eq_getElem hp]
    cases hb : bits[bitPos m data h] <;> simp [ih]

/-- On a well-formed filter `Add` returns; it keeps `m`, `k`, the hash functions and the
length, sets exactly the hashed positions and increments the counter modulo `2 ^ 64`. -/
theorem Add_spec (bf : BloomFilter) (hwf : bf.WF) (key : Bytes) :
    ∃ bf', bf.Add key = some bf' ∧ bf'.m = bf.m ∧ bf'.k = bf.k ∧ bf'.hashes = bf.hashes ∧
      bf'.bitSet.length = bf.m ∧
      (∀ i, bf'.bitSet[i]? =
        if bf.hashes.any (fun h => bitPos bf.m key h == i) then some true else bf.bitSet[i]?) ∧
      bf'.count = (bf.count + 1) % uint64Size := by
  obtain ⟨hm, _, hlen, _⟩ := hwf
  obtain ⟨bits', hrun, hlen', hget⟩ := addLoop_spec hm key bf.hashes bf.bitSet hlen
  exact ⟨{ bf with bitSet := bits', count := (bf.count + 1) % uint64Size },
    by simp [BloomFilter.Add, hrun], rfl, rfl, rfl, hlen', hget, rfl⟩

/-- Well-formedness is kept by `Add`. -/
theorem Add_wf (bf bf' : BloomFilter) (hwf : bf.WF) (key : Bytes) (h : bf.Add key = some bf') :
    bf'.WF := by
  obtain ⟨s, hs, hm, hk, _, hlen, _, hc⟩ := Add_spec bf hwf key
  rw [hs] at h
  cases h
  exact ⟨hm ▸ hwf.1, hk ▸ hwf.2.1, hlen.trans hm.symm,
    hc ▸ Nat.mod_lt _ (by decide)⟩

/-- On a well-formed filter `Test` returns, and returns whether the key is covered. -/
theorem Test_spec (bf : BloomFilter) (hwf : bf.WF) (key : Bytes) :
    bf.Test key = some (bf.hashes.all (fun h => bf.bitSet[bitPos bf.m key h]? == some true)) :=
  testLoop_spec hwf.1 key bf.bitSet hwf.2.2.1 bf.hashes

/-- On a well-formed filter `Test` is true exactly on covered keys. -/
theorem Test_true_iff (bf : BloomFilter) (hwf : bf.WF) (key : Bytes) :
    bf.Test key = some true ↔ bf.covers key := by
  rw [Test_spec bf hwf key]
  simp [BloomFilter.covers]

/-- On a well-formed filter `Test` is false exactly on keys that are not covered. -/
theorem Test_false_iff (bf : BloomFilter) (hwf : bf.WF) (key : Bytes) :
    bf.Test key = some false ↔ ¬ bf.covers key := by
  rw [Test_spec bf hwf key]
  simp [BloomFilter.covers]

/-- The guard that replaces 0 by 1 gives a number that is at least 1. -/
theorem one_le_floor_one (x : Nat) : 1 ≤ (if (x == 0) = true then 1 else x) := by
  by_cases hx : x = 0
  · simp [hx]
  · simp [hx]; omega

/-- Both results of `getOptimalParams` are at least 1. -/
theorem getOptimalParams_pos (fa : FloatArith) (n : Nat) (p : Float64) :
    1 ≤ (getOptimalParams fa n p).1 ∧ 1 ≤ (getOptimalParams fa n p).2 :=
  ⟨one_le_floor_one _, one_le_floor_one _⟩

/-- The shape of the results of `getOptimalParams`: each `float64` expression, as a
`uint64`, raised to 1 when it is 0, the second one computed from the raised `m`. -/
theorem getOptimalParams_eq (fa : FloatArith) (n : Nat) (p : Float64) :
    getOptimalParams fa n p =
      (max 1 (fa.bitSetSize n p % uint64Size),
        max 1 (fa.hashCount (max 1 (fa.bitSetSize n p % uint64Size)) n % uint64Size)) := by
  have hmax : ∀ x : Nat, (if (x == 0) = true then 1 else x) = max 1 x := by
    intro x
    by_cases hx : x = 0
    · simp [hx]
    · have : 1 ≤ x := Nat.one_le_iff_ne_zero.mpr hx
      simp [hx, Nat.max_eq_right this]
  simp only [getOptimalParams, hmax]

/-- The fresh filter of `NewBloomFilter` is well formed, with counter zero. -/
theorem NewBloomFilter_wf (fa : FloatArith) (n : Nat) (p : Float64) (hasher : Option Hasher)
    (bf : BloomFilter) (h : NewBloomFilter fa n p hasher = .ok bf) :
    bf.WF ∧ bf.count = 0 := by
  unfold NewBloomFilter at h
  split at h
  · cases h
  · split at h
    · cases h
    · cases hasher with
      | none => cases h
      | some g =>
        simp only [Except.ok.injEq] at h
        subst h
        refine ⟨⟨?_, ?_, by simp, Nat.two_pow_pos 64⟩, rfl⟩
        · exact (getOptimalParams_pos fa n p).1
        · exact (getOptimalParams_pos fa n p).2

/-- A key stays covered, and every set bit stays set, across `Add`. -/
theorem Add_mono (bf bf' : BloomFilter) (hwf : bf.WF) (key : Bytes)
    (h : bf.Add key = some bf') :
    (∀ i : Nat, bf.bitSet[i]? = some true → bf'.bitSet[i]? = some true) ∧
      (∀ x, bf.covers x → bf'.covers x) ∧ bf'.covers key := by
  obtain ⟨s, hs, hm, _, hh, _, hget, _⟩ := Add_spec bf hwf key
  rw [hs] at h
  cases h
  have hbits : ∀ i : Nat, bf.bitSet[i]? = some true → bf'.bitSet[i]? = some true := by
    intro i hi
    rw [hget i]
    split <;> simp [hi]
  refine ⟨hbits, ?_, ?_⟩
  · intro x hx g hg
    rw [hh] at hg
    rw [hm]
    exact hbits _ (hx g hg)
  · intro g hg
    rw [hh] at hg
    rw [hm, hget]
    have : (bf.hashes.any fun h => bitPos bf.m key h == bitPos bf.m key g) = true :=
      List.any_eq_true.mpr ⟨g, hg, by simp⟩
    simp [this]

/-- One operation on a well-formed filter returns a well-formed filter with the same
`m`, `k` and hash functions, no bit cleared, and the counter advanced modulo `2 ^ 64`
by an `Add` only. -/
theorem step_spec (bf : BloomFilter) (hwf : bf.WF) (op : Op) :
    ∃ s, step bf op = some s ∧ s.WF ∧ s.m = bf.m ∧ s.k = bf.k ∧ s.hashes = bf.hashes ∧
      (∀ i : Nat, bf.bitSet[i]? = some true → s.bitSet[i]? = some true) ∧
      (∀ x, bf.covers x → s.covers x) ∧
      (∀ x, op = Op.add x → s.covers x) ∧
      s.count = (if op.isAdd then (bf.count + 1) % uint64Size else bf.count) ∧
      (op.isAdd = false → s = bf) := by
  cases op with
  | add key =>
    obtain ⟨s, hs, hm, hk, hh, _, _, hc⟩ := Add_spec bf hwf key
    obtain ⟨hb, hcov, hkey⟩ := Add_mono bf s hwf key hs
    refine ⟨s, hs, Add_wf bf s hwf key hs, hm, hk, hh, hb, hcov, ?_, by simpa [Op.isAdd] using hc,
      by simp [Op.isAdd]⟩
    intro x hx
    cases hx
    exact hkey
  | test key =>
    refine ⟨bf, by simp [step, Test_spec bf hwf key], hwf, rfl, rfl, rfl, fun _ h => h,
      fun _ h => h, by simp, rfl, fun _ => rfl⟩
  | count =>
    exact ⟨bf, rfl, hwf, rfl, rfl, rfl, fun _ h => h, fun _ h => h, by simp, rfl, fun _ => rfl⟩

/-- A run of operations on a well-formed filter returns a well-formed filter with the
same `m`, `k` and hash functions, no bit cleared, every added key covered, and the
counter advanced modulo `2 ^ 64` by the number of `Add` calls. -/
theorem run_spec (ops : List Op) :
    ∀ bf : BloomFilter, bf.WF →
      ∃ s, run bf ops = some s ∧ s.WF ∧ s.m = bf.m ∧ s.k = bf.k ∧ s.hashes = bf.hashes ∧
        (∀ i : Nat, bf.bitSet[i]? = some true → s.bitSet[i]? = some true) ∧
        (∀ x, bf.covers x → s.covers x) ∧
        (∀ x, Op.add x ∈ ops → s.covers x) ∧
        s.count = (bf.count + ops.countP Op.isAdd) % uint64Size := by
  induction ops with
  | nil =>
    intro bf hwf
    exact ⟨bf, rfl, hwf, rfl, rfl, rfl, fun _ h => h, fun _ h => h, by simp,
      by simp [Nat.mod_eq_of_lt hwf.2.2.2]⟩
  | cons op rest ih =>
    intro bf hwf
    obtain ⟨s1, h1, hwf1, hm1, hk1, hh1, hb1, hc1, ha1, hn1, _⟩ := step_spec bf hwf op
    obtain ⟨s, h2, hwf2, hm2, hk2, hh2, hb2, hc2, ha2, hn2⟩ := ih s1 hwf1
    refine ⟨s, by simp [run, h1, h2], hwf2, hm2.trans hm1, hk2.trans hk1, hh2.trans hh1,
      fun i hi => hb2 i (hb1 i hi), fun x hx => hc2 x (hc1 x hx), ?_, ?_⟩
    · intro x hx
      rcases List.mem_cons.mp hx with h | h
      · exact hc2 x (ha1 x h.symm)
      · exact ha2 x h
    · rw [hn2, hn1, List.countP_cons]
      cases hop : op.isAdd
      · simp
      · simp only [if_true, Nat.mod_add_mod]
        congr 1; omega

/-- The example filter is what `NewBloomFilter` returns on the example values. -/
theorem sampleFilter_new :
    NewBloomFilter sampleArith 10 fpRateMilli (some sumHasher) = .ok sampleFilter := rfl

/-- The example filter is well formed. -/
theorem sampleFilter_wf : sampleFilter.WF :=
  (NewBloomFilter_wf _ _ _ _ _ sampleFilter_new).1

/-- The filter with the counter at its maximum is well formed. -/
theorem maxedFilter_wf : maxedFilter.WF := by
  refine ⟨le_refl 1, le_refl 1, rfl, ?_⟩
  show uint64Size - 1 < uint64Size
  exact Nat.sub_lt (Nat.two_pow_pos 64) Nat.one_pos

/-! ## The claims on the filter -/

/-- C1. No false negatives: on a filter built by `NewBloomFilter`, whatever operations
come before `Add(x)` and whatever operations come after it, the run returns and
`Test(x)` is then true; and if `Test(x)` is false in a state reached from the fresh
filter, `Add(x)` is not among the operations that led there. -/
theorem no_false_negatives (fa : FloatArith) (n : Nat) (p : Float64) (hasher : Option Hasher)
    (bf0 : BloomFilter) (h0 : NewBloomFilter fa n p hasher = .ok bf0) (x : Bytes) :
    (∀ before after : List Op,
      ∃ s, run bf0 (before ++ Op.add x :: after) = some s ∧ s.Test x = some true) ∧
    (∀ (ops : List Op) (s : BloomFilter),
      run bf0 ops = some s → s.Test x = some false → Op.add x ∉ ops) := by
  have hwf := (NewBloomFilter_wf fa n p hasher bf0 h0).1
  constructor
  · intro before after
    obtain ⟨s, hs, hwfs, _, _, _, _, _, hadd, _⟩ := run_spec (before ++ Op.add x :: after) bf0 hwf
    exact ⟨s, hs, (Test_true_iff s hwfs x).mpr (hadd x (by simp))⟩
  · intro ops s hs htest hmem
    obtain ⟨s', hs', hwfs, _, _, _, _, _, hadd, _⟩ := run_spec ops bf0 hwf
    rw [hs] at hs'
    cases hs'
    exact (Test_false_iff s hwfs x).mp htest (hadd x hmem)

/-- Witness of C1 on the example filter: `Add` of the key `1` between other operations. -/
theorem no_false_negatives_witness :
    NewBloomFilter sampleArith 10 fpRateMilli (some sumHasher) = .ok sampleFilter ∧
      ∃ s, run sampleFilter ([Op.add [50]] ++ Op.add [49] :: [Op.add [51], Op.test [52]]) = some s ∧
        s.Test [49] = some true :=
  ⟨rfl, (no_false_negatives sampleArith 10 fpRateMilli (some sumHasher) sampleFilter rfl [49]).1
    [Op.add [50]] [Op.add [51], Op.test [52]]⟩

/-- C5. For every `N > 0` and every `p` with `0 < p < 1`, whatever the `float64`
expressions evaluate to, `getOptimalParams(N, p)` returns `m ≥ 1` and `k ≥ 1`. -/
theorem getOptimalParams_ge_one (fa : FloatArith) (n : Nat) (p : Float64) (_hn : 0 < n)
    (_hp0 : Float64.zero.lt p = true) (_hp1 : p.lt Float64.one = true) :
    1 ≤ (getOptimalParams fa n p).1 ∧ 1 ≤ (getOptimalParams fa n p).2 :=
  getOptimalParams_pos fa n p

/-- Witness of C5 at `N = 10` and the `float64` nearest to `0.001`. -/
theorem getOptimalParams_ge_one_witness :
    0 < 10 ∧ Float64.zero.lt fpRateMilli = true ∧ fpRateMilli.lt Float64.one = true ∧
      1 ≤ (getOptimalParams sampleArith 10 fpRateMilli).1 ∧
      1 ≤ (getOptimalParams sampleArith 10 fpRateMilli).2 :=
  ⟨by decide, by decide, by decide,
    getOptimalParams_ge_one sampleArith 10 fpRateMilli (by decide) (by decide) (by decide)⟩

/-- C7, as the code has it: on every well-formed filter `Add(key)` returns; the bit at
index `i` is set afterwards if some hash function of the filter maps `key` to `i`, and
is as before otherwise; `m`, the hash functions and the length are kept; `Count()`
grows by exactly 1 while it is below `2 ^ 64 - 1` and wraps to 0 from there. Whether
`Test(key)` was true before plays no role. -/
theorem Add_sets_bits_and_counts (bf : BloomFilter) (hwf : bf.WF) (key : Bytes) :
    ∃ bf', bf.Add key = some bf' ∧ bf'.m = bf.m ∧ bf'.hashes = bf.hashes ∧
      bf'.bitSet.length = bf.bitSet.length ∧
      (∀ i : Nat, bf'.bitSet[i]? =
        if bf.hashes.any (fun h => bitPos bf.m key h == i) then some true else bf.bitSet[i]?) ∧
      (bf.Count + 1 < uint64Size → bf'.Count = bf.Count + 1) ∧
      (bf.Count + 1 = uint64Size → bf'.Count = 0) := by
  obtain ⟨s, hs, hm, _, hh, hlen, hget, hc⟩ := Add_spec bf hwf key
  refine ⟨s, hs, hm, hh, hlen.trans hwf.2.2.1.symm, hget, ?_, ?_⟩
  · intro hlt
    show s.count = bf.count + 1
    rw [hc]
    exact Nat.mod_eq_of_lt hlt
  · intro heq
    show s.count = 0
    rw [hc]
    show (bf.count + 1) % uint64Size = 0
    have : bf.count + 1 = uint64Size := heq
    rw [this, Nat.mod_self]

/-- Witness of C7 on the example filter and the key `1`. -/
theorem Add_sets_bits_and_counts_witness :
    sampleFilter.WF ∧
      ∃ bf', sampleFilter.Add [49] = some bf' ∧ bf'.m = sampleFilter.m ∧
        bf'.hashes = sampleFilter.hashes ∧
        bf'.bitSet.length = sampleFilter.bitSet.length ∧
        (∀ i : Nat, bf'.bitSet[i]? =
          if sampleFilter.hashes.any (fun h => bitPos sampleFilter.m [49] h == i) then some true
          else sampleFilter.bitSet[i]?) ∧
        (sampleFilter.Count + 1 < uint64Size → bf'.Count = sampleFilter.Count + 1) ∧
        (sampleFilter.Count + 1 = uint64Size → bf'.Count = 0) :=
  ⟨sampleFilter_wf, Add_sets_bits_and_counts sampleFilter sampleFilter_wf [49]⟩

/-- C7 as stated fails when the counter is at the largest `uint64`: `Add` on such a
well-formed filter leaves `Count()` at 0, not one more than before. -/
theorem Add_count_wraps :
    maxedFilter.WF ∧ maxedFilter.Count = 18446744073709551615 ∧
      ∃ bf', maxedFilter.Add [] = some bf' ∧ bf'.Count = 0 ∧
        bf'.Count ≠ maxedFilter.Count + 1 := by
  refine ⟨maxedFilter_wf, by decide, _, rfl, by decide, by decide⟩

/-- C8. On every well-formed filter `Test(key)` returns, and it returns true if and
only if the bit at position `Sum64() % m` is set for every hash function of the
filter. -/
theorem Test_true_iff_all_bits (bf : BloomFilter) (hwf : bf.WF) (key : Bytes) :
    ∃ b, bf.Test key = some b ∧
      (b = true ↔ ∀ h ∈ bf.hashes, bf.bitSet[bitPos bf.m key h]? = some true) := by
  refine ⟨_, Test_spec bf hwf key, ?_⟩
  simp

/-- Witness of C8 on the example filter and the key `1`. -/
theorem Test_true_iff_all_bits_witness :
    sampleFilter.WF ∧
      ∃ b, sampleFilter.Test [49] = some b ∧
        (b = true ↔
          ∀ h ∈ sampleFilter.hashes, sampleFilter.bitSet[bitPos sampleFilter.m [49] h]? = some true) :=
  ⟨sampleFilter_wf, Test_true_iff_all_bits sampleFilter sampleFilter_wf [49]⟩

/-- C9, as the code has it: in every state reached from a filter built by
`NewBloomFilter`, every operation (`Add`, `Test`, `Count`) returns; `m` and `k` are
those of the fresh filter and are at least 1, the bit set keeps length `m`, no set bit
is cleared, and `Count()` does not decrease as long as it is below `2 ^ 64 - 1`. -/
theorem filter_invariant (fa : FloatArith) (n : Nat) (p : Float64) (hasher : Option Hasher)
    (bf0 : BloomFilter) (h0 : NewBloomFilter fa n p hasher = .ok bf0)
    (ops : List Op) (op : Op) :
    ∃ s s', run bf0 ops = some s ∧ step s op = some s' ∧
      1 ≤ bf0.m ∧ 1 ≤ bf0.k ∧ bf0.bitSet.length = bf0.m ∧
      s.m = bf0.m ∧ s.k = bf0.k ∧ s.bitSet.length = bf0.m ∧
      s'.m = bf0.m ∧ s'.k = bf0.k ∧ s'.bitSet.length = bf0.m ∧
      (∀ i : Nat, bf0.bitSet[i]? = some true → s.bitSet[i]? = some true) ∧
      (∀ i : Nat, s.bitSet[i]? = some true → s'.bitSet[i]? = some true) ∧
      (s.Count + 1 < uint64Size → s.Count ≤ s'.Count) := by
  have hwf := (NewBloomFilter_wf fa n p hasher bf0 h0).1
  obtain ⟨s, hs, hwfs, hm, hk, _, hb, _, _, _⟩ := run_spec ops bf0 hwf
  obtain ⟨s', hs', hwfs', hm', hk', _, hb', _, _, hc', _⟩ := step_spec s hwfs op
  refine ⟨s, s', hs, hs', hwf.1, hwf.2.1, hwf.2.2.1, hm, hk, ?_, hm'.trans hm, hk'.trans hk, ?_,
    hb, hb', ?_⟩
  · rw [hwfs.2.2.1, hm]
  · rw [hwfs'.2.2.1, hm', hm]
  · intro hlt
    show s.count ≤ s'.count
    rw [hc']
    split
    · have hlt' : s.count + 1 < uint64Size := hlt
      rw [Nat.mod_eq_of_lt hlt']; exact Nat.le_succ _
    · exact le_refl _

/-- Witness of C9 on the example filter, after three operations. -/
theorem filter_invariant_witness :
    NewBloomFilter sampleArith 10 fpRateMilli (some sumHasher) = .ok sampleFilter ∧
      ∃ s s', run sampleFilter [Op.add [49], Op.test [50], Op.count] = some s ∧
        step s (Op.add [49]) = some s' ∧
        1 ≤ sampleFilter.m ∧ 1 ≤ sampleFilter.k ∧ sampleFilter.bitSet.length = sampleFilter.m ∧
        s.m = sampleFilter.m ∧ s.k = sampleFilter.k ∧ s.bitSet.length = sampleFilter.m ∧
        s'.m = sampleFilter.m ∧ s'.k = sampleFilter.k ∧ s'.bitSet.length = sampleFilter.m ∧
        (∀ i : Nat, sampleFilter.bitSet[i]? = some true → s.bitSet[i]? = some true) ∧
        (∀ i : Nat, s.bitSet[i]? = some true → s'.bitSet[i]? = some true) ∧
        (s.Count + 1 < uint64Size → s.Count ≤ s'.Count) :=
  ⟨rfl, filter_invariant sampleArith 10 fpRateMilli (some sumHasher) sampleFilter rfl
    [Op.add [49], Op.test [50], Op.count] (Op.add [49])⟩

/-- C9 as stated fails for the counter: on the filter `NewBloomFilter` builds from the
example values, after `2 ^ 64 - 1` calls of `Add` one more `Add` takes `Count()` from
`2 ^ 64 - 1` down to 0. -/
theorem Count_decreases_on_wrap :
    ∃ bf0 s s', NewBloomFilter sampleArith 10 fpRateMilli (some sumHasher) = .ok bf0 ∧
      run bf0 (List.replicate (uint64Size - 1) (Op.add [])) = some s ∧
      step s (Op.add []) = some s' ∧ s.Count = uint64Size - 1 ∧ s'.Count = 0 ∧
      s'.Count < s.Count := by
  obtain ⟨s, hs, hwfs, _, _, _, _, _, _, hc⟩ :=
    run_spec (List.replicate (uint64Size - 1) (Op.add [])) sampleFilter sampleFilter_wf
  obtain ⟨s', hs', _, _, _, _, _, _, _, hc', _⟩ := step_spec s hwfs (Op.add [])
  have hpos : 0 < uint64Size := Nat.two_pow_pos 64
  have h1 : s.count = uint64Size - 1 := by
    rw [hc, List.countP_replicate]
    simp only [Op.isAdd, if_true]
    show (0 + (uint64Size - 1)) % uint64Size = uint64Size - 1
    rw [Nat.zero_add]
    exact Nat.mod_eq_of_lt (Nat.sub_lt hpos Nat.one_pos)
  have h2 : s'.count = 0 := by
    rw [hc', h1]
    simp only [Op.isAdd, if_true]
    rw [Nat.sub_add_cancel hpos, Nat.mod_self]
  refine ⟨sampleFilter, s, s', rfl, hs, hs', h1, h2, ?_⟩
  show s'.count < s.count
  rw [h1, h2]
  decide

/-! ## Test-then-add -/

/-- The guarded step on a well-formed filter returns a well-formed filter that covers
the key and everything covered before; it leaves a filter that covers the key as it
is, and otherwise raises the counter by at most 1. -/
theorem testThenAdd_spec (bf : BloomFilter) (hwf : bf.WF) (x : Bytes) :
    ∃ s, testThenAdd bf x = some s ∧ s.WF ∧ (∀ y, bf.covers y → s.covers y) ∧ s.covers x ∧
      s.count ≤ bf.count + 1 ∧ (bf.covers x → s = bf) := by
  cases hb : bf.hashes.all (fun h => bf.bitSet[bitPos bf.m x h]? == some true) with
  | true =>
    have ht : bf.Test x = some true := by rw [Test_spec bf hwf x, hb]
    exact ⟨bf, by simp [testThenAdd, ht], hwf, fun _ h => h, (Test_true_iff bf hwf x).mp ht,
      Nat.le_succ _, fun _ => rfl⟩
  | false =>
    have ht : bf.Test x = some false := by rw [Test_spec bf hwf x, hb]
    obtain ⟨s, hs, _, _, _, _, _, hc⟩ := Add_spec bf hwf x
    obtain ⟨_, hcov, hx⟩ := Add_mono bf s hwf x hs
    refine ⟨s, by simp [testThenAdd, ht, hs], Add_wf bf s hwf x hs, hcov, hx, ?_, ?_⟩
    · rw [hc]; exact Nat.mod_le _ _
    · intro h
      exact absurd h ((Test_false_iff bf hwf x).mp ht)

/-- A sequence of guarded steps keeps covered keys covered. -/
theorem testThenAddAll_covers (keys : List Bytes) :
    ∀ bf : BloomFilter, bf.WF →
      ∃ s, testThenAddAll bf keys = some s ∧ s.WF ∧ (∀ y, bf.covers y → s.covers y) := by
  induction keys with
  | nil => intro bf hwf; exact ⟨bf, rfl, hwf, fun _ h => h⟩
  | cons x rest ih =>
    intro bf hwf
    obtain ⟨s1, h1, hwf1, hc1, _, _, _⟩ := testThenAdd_spec bf hwf x
    obtain ⟨s, h2, hwf2, hc2⟩ := ih s1 hwf1
    exact ⟨s, by simp [testThenAddAll, h1, h2], hwf2, fun y hy => hc2 y (hc1 y hy)⟩

/-- A sequence of guarded steps started in a state that covers the keys `seen` and whose
counter is at most the number of distinct keys in `seen` ends with a counter that is
at most the number of distinct keys in `seen ++ keys`. -/
theorem testThenAddAll_count (keys : List Bytes) :
    ∀ (bf : BloomFilter) (seen : List Bytes), bf.WF → (∀ y ∈ seen, bf.covers y) →
      bf.count ≤ seen.toFinset.card →
      ∃ s, testThenAddAll bf keys = some s ∧ s.count ≤ (seen ++ keys).toFinset.card := by
  induction keys with
  | nil => intro bf seen _ _ hc; exact ⟨bf, rfl, by simpa using hc⟩
  | cons x rest ih =>
    intro bf seen hwf hseen hc
    obtain ⟨s1, h1, hwf1, hc1, hx1, hcnt1, hsame⟩ := testThenAdd_spec bf hwf x
    have hseen1 : ∀ y ∈ seen ++ [x], s1.covers y := by
      intro y hy
      rcases List.mem_append.mp hy with h | h
      · exact hc1 y (hseen y h)
      · rw [List.mem_singleton.mp h]; exact hx1
    have hcount1 : s1.count ≤ (seen ++ [x]).toFinset.card := by
      by_cases hx : x ∈ seen
      · rw [hsame (hseen x hx)]
        refine hc.trans (Finset.card_le_card ?_)
        intro y hy
        simp only [List.mem_toFinset] at hy ⊢
        exact List.mem_append_left _ hy
      · have : (seen ++ [x]).toFinset.card = seen.toFinset.card + 1 := by
          have hins : (seen ++ [x]).toFinset = insert x seen.toFinset := by
            ext y
            simp only [List.mem_toFinset, List.mem_append, List.mem_singleton,
              Finset.mem_insert]
            exact Or.comm
          rw [hins, Finset.card_insert_of_not_mem (by simpa using hx)]
        omega
    obtain ⟨s, h2, hcnt⟩ := ih s1 (seen ++ [x]) hwf1 hseen1 hcount1
    refine ⟨s, by simp [testThenAddAll, h1, h2], ?_⟩
    simpa [List.append_assoc] using hcnt

/-- The loop of `processData` is the sequence of guarded steps on the non-empty lines. -/
theorem processLines_eq (lines : List Bytes) :
    ∀ bf : BloomFilter,
      processLines bf lines = testThenAddAll bf (lines.filter (fun ip => ip.length ≠ 0)) := by
  induction lines with
  | nil => intro bf; rfl
  | cons ip rest ih =>
    intro bf
    by_cases hip : ip.length = 0
    · rw [List.filter_cons_of_neg (by simp [hip])]
      simp only [processLines, hip, if_true]
      exact ih bf
    · rw [List.filter_cons_of_pos (by simp [hip])]
      simp only [processLines, hip, if_false, testThenAddAll]
      cases testThenAdd bf ip with
      | none => rfl
      | some s => exact ih s

/-- C10. In every state reached from a filter built by `NewBloomFilter`, the guarded
step `if !Test(x) then Add(x)` returns and raises `Count()` by at most 1; after any
sequence of guarded steps on other keys, the guarded step on `x` again returns and
leaves the filter, and so `Count()`, as it is. Hence processing any list of lines on
the fresh filter returns, with `Count()` at most the number of distinct non-empty
lines. -/
theorem test_then_add_idempotent (fa : FloatArith) (n : Nat) (p : Float64)
    (hasher : Option Hasher) (bf0 : BloomFilter) (h0 : NewBloomFilter fa n p hasher = .ok bf0)
    (ops : List Op) (x : Bytes) (others lines : List Bytes) :
    (∃ s s1 s2, run bf0 ops = some s ∧ testThenAdd s x = some s1 ∧
      testThenAddAll s1 others = some s2 ∧ testThenAdd s2 x = some s2 ∧
      s1.Count ≤ s.Count + 1) ∧
    (∃ t, processLines bf0 lines = some t ∧
      t.Count ≤ ((lines.filter (fun ip => ip.length ≠ 0)).dedup).length) := by
  obtain ⟨hwf, hzero⟩ := NewBloomFilter_wf fa n p hasher bf0 h0
  constructor
  · obtain ⟨s, hs, hwfs, _⟩ := run_spec ops bf0 hwf
    obtain ⟨s1, h1, hwf1, _, hx1, hcnt1, _⟩ := testThenAdd_spec s hwfs x
    obtain ⟨s2, h2, hwf2, hc2⟩ := testThenAddAll_covers others s1 hwf1
    obtain ⟨s3, h3, _, _, _, _, hsame⟩ := testThenAdd_spec s2 hwf2 x
    rw [hsame (hc2 x hx1)] at h3
    exact ⟨s, s1, s2, hs, h1, h2, h3, hcnt1⟩
  · obtain ⟨t, ht, hcnt⟩ := testThenAddAll_count (lines.filter (fun ip => ip.length ≠ 0)) bf0 []
      hwf (by simp) (by simp [hzero])
    refine ⟨t, by rw [processLines_eq, ht], ?_⟩
    rw [← List.card_toFinset]
    simpa using hcnt

/-- Witness of C10 on the example filter and the lines of the end-to-end example. -/
theorem test_then_add_idempotent_witness :
    NewBloomFilter sampleArith 10 fpRateMilli (some sumHasher) = .ok sampleFilter ∧
      (∃ s s1 s2, run sampleFilter [Op.add [50]] = some s ∧ testThenAdd s [49] = some s1 ∧
        testThenAddAll s1 [[51], [52]] = some s2 ∧ testThenAdd s2 [49] = some s2 ∧
        s1.Count ≤ s.Count + 1) ∧
      (∃ t, processLines sampleFilter [[49], [50], [49], []] = some t ∧
        t.Count ≤
          (([[49], [50], [49], []] : List Bytes).filter (fun ip => ip.length ≠ 0)).dedup.length) :=
  ⟨rfl, test_then_add_idempotent sampleArith 10 fpRateMilli (some sumHasher) sampleFilter rfl
    [Op.add [50]] [49] [[51], [52]] [[49], [50], [49], []]⟩

/-! ## Construction -/

/-- The constructor returns an error exactly when one of its three guards fires. -/
theorem NewBloomFilter_error_iff (fa : FloatArith) (n : Nat) (p : Float64)
    (hasher : Option Hasher) :
    (∃ e, NewBloomFilter fa n p hasher = .error e) ↔
      (n = 0 ∨ p.le Float64.zero = true ∨ p.ge Float64.one = true ∨ hasher = none) := by
  unfold NewBloomFilter
  by_cases hn : n = 0
  · simp [hn]
  · by_cases hp : (p.le Float64.zero || p.ge Float64.one) = true
    · simp only [beq_iff_eq, hn, if_false, hp, if_true, false_or]
      simp only [Bool.or_eq_true] at hp
      constructor
      · intro _
        rcases hp with h | h
        · exact Or.inl h
        · exact Or.inr (Or.inl h)
      · intro _; exact ⟨_, rfl⟩
    · simp only [beq_iff_eq, hn, if_false, hp, false_or]
      simp only [Bool.or_eq_true, not_or] at hp
      cases hasher with
      | none => simp
      | some g => simp [hp.1, hp.2]

/-- For a `float64` that is not NaN, neither guard `fpRate <= 0`, `fpRate >= 1` fires
exactly when `0 < fpRate` and `fpRate < 1`. -/
theorem guards_pass_iff_between (p : Float64) (hp : p ≠ Float64.nan) :
    (p.le Float64.zero = false ∧ p.ge Float64.one = false) ↔
      (Float64.zero.lt p = true ∧ p.lt Float64.one = true) := by
  cases p with
  | nan => exact absurd rfl hp
  | negInf => simp [Float64.le, Float64.lt, Float64.zero]
  | posInf => simp [Float64.le, Float64.ge, Float64.lt, Float64.one]
  | finite m e =>
    simp only [Float64.le, Float64.ge, Float64.lt, Float64.zero, Float64.one, dyadicLe, dyadicLt,
      decide_eq_false_iff_not, decide_eq_true_eq, not_le]
    rw [min_comm 0 e]

/-- C4 at NaN: NaN is not strictly between 0 and 1, yet for `elementNumbers = 1` and any
hasher that is not nil both guards on `fpRate` are false, so `NewBloomFilter` returns
no error, whatever the sizing and the allocation that follow do. -/
theorem NewBloomFilter_accepts_nan (fa : FloatArith) (hasher : Hasher) :
    ¬ (Float64.zero.lt Float64.nan = true ∧ Float64.nan.lt Float64.one = true) ∧
      Float64.nan.le Float64.zero = false ∧ Float64.nan.ge Float64.one = false ∧
      ¬ ∃ e, NewBloomFilter fa 1 Float64.nan (some hasher) = .error e := by
  refine ⟨by decide, by decide, by decide, ?_⟩
  rw [NewBloomFilter_error_iff]
  rintro (h | h | h | h)
  · exact absurd h (by decide)
  · exact absurd h (by decide)
  · exact absurd h (by decide)
  · cases h

/-! ## The read loop -/

/-- C2 at the source `"ab\n"`: read in blocks of 1 byte the workers see the two lines
`a` and `b`, read as one block of 3 bytes they see the single line `ab`; the two
multisets of lines differ, with or without the empty tokens. -/
theorem readerLines_depend_on_block_size :
    readerLines 1 [97, 98, 10] = [[97], [98]] ∧
      readerLines 3 [97, 98, 10] = [[97, 98]] ∧
      (readerLines 1 [97, 98, 10] : Multiset Bytes) ≠ (readerLines 3 [97, 98, 10] : Multiset Bytes) ∧
      (readerTokens 1 [97, 98, 10] : Multiset Bytes) ≠ (readerTokens 3 [97, 98, 10] : Multiset Bytes) := by
  decide

/-- The example of the specification: `"a\nb\nc\n"` read in blocks of 1 byte and read
as one block of 6 bytes gives the workers the same three lines. -/
theorem readerLines_abc :
    readerLines 1 [97, 10, 98, 10, 99, 10] = [[97], [98], [99]] ∧
      readerLines 6 [97, 10, 98, 10, 99, 10] = [[97], [98], [99]] := by
  decide

/-- C3 at the source `"ab\n"` read in blocks of 1 byte: three chunks are passed to
`pool.Add`, and the first two, which are not the last, do not end with a newline. -/
theorem chunk_without_newline_is_delivered :
    readFile 1 [97, 98, 10] = [⟨[97], none⟩, ⟨[98], none⟩, ⟨[10], none⟩, ⟨[], some ReadErr.eof⟩] ∧
      deliveredChunks 1 (readFile 1 [97, 98, 10]) = [[97], [98], [10]] ∧
      ([97] : Bytes).getLast? ≠ some newline ∧ ([98] : Bytes).getLast? ≠ some newline := by
  decide

/-- When a newline occurs below index `k`, the backward scan from `k` stops right
after a newline. -/
theorem findEnd_of_newline (buf : Bytes) (n : Nat) :
    ∀ k : Nat, (∃ i, i < k ∧ buf[i]? = some newline) →
      ∃ j, j < k ∧ findEnd buf n k = j + 1 ∧ buf[j]? = some newline := by
  intro k
  induction k with
  | zero => rintro ⟨i, hi, _⟩; exact absurd hi (Nat.not_lt_zero i)
  | succ k ih =>
    rintro ⟨i, hi, hnl⟩
    by_cases hk : buf[k]? = some newline
    · exact ⟨k, Nat.lt_succ_self k, by simp [findEnd, hk], hk⟩
    · have hik : i < k := by
        rcases Nat.lt_succ_iff_lt_or_eq.mp hi with h | h
        · exact h
        · subst h; exact absurd hnl hk
      obtain ⟨j, hj, hfe, hjn⟩ := ih ⟨i, hik, hnl⟩
      exact ⟨j, Nat.lt_succ_of_lt hj, by simp [findEnd, hk, hfe], hjn⟩

/-- When no newline occurs below index `k`, the backward scan from `k` leaves `end`
at `n`. -/
theorem findEnd_of_no_newline (buf : Bytes) (n : Nat) :
    ∀ k : Nat, (∀ i, i < k → buf[i]? ≠ some newline) → findEnd buf n k = n := by
  intro k
  induction k with
  | zero => intro _; rfl
  | succ k ih =>
    intro h
    simp only [findEnd, h k (Nat.lt_succ_self k), if_false]
    exact ih (fun i hi => h i (Nat.lt_succ_of_lt hi))

/-- When every read either ends the loop (`n == 0` with `io.EOF`) or holds a newline
among the bytes read, every chunk the loop passes to `pool.Add` ends with a newline.
This is about where the chunks end only: after a short read the residual still holds
the zero bytes behind the bytes read. -/
theorem readLoop_chunks_end_at_newline (chunkSize : Nat) (reads : List ReadResult) :
    ∀ ending : Bytes,
      (∀ r ∈ reads, (min r.data.length chunkSize = 0 ∧ r.err = some ReadErr.eof) ∨
        newline ∈ r.data.take chunkSize) →
      ∀ c ∈ (readLoop chunkSize reads ending).1, c.getLast? = some newline := by
  induction reads with
  | nil => intro ending _ c hc; simp [readLoop] at hc
  | cons r rest ih =>
    intro ending hall c hc
    by_cases hn : min r.data.length chunkSize = 0 ∧ r.err = some ReadErr.eof
    · simp [readLoop, hn] at hc
    · have hr : newline ∈ r.data.take chunkSize := by
        rcases hall r (List.mem_cons_self _ _) with h | h
        · exact absurd h hn
        · exact h
      obtain ⟨i, hi, hget⟩ := List.mem_iff_getElem.mp hr
      have hlen : (r.data.take chunkSize).length = min r.data.length chunkSize := by
        rw [List.length_take, Nat.min_comm]
      have hbuf : (fillBuf chunkSize r.data)[i]? = some newline := by
        unfold fillBuf
        rw [List.getElem?_append_left hi, List.getElem?_eq_getElem hi, hget]
      obtain ⟨j, _, hfe, hj⟩ := findEnd_of_newline (fillBuf chunkSize r.data)
        (min r.data.length chunkSize) (min r.data.length chunkSize) ⟨i, hlen ▸ hi, hbuf⟩
      simp only [readLoop, hn, if_false, List.mem_cons] at hc
      rcases hc with h | h
      · rw [h, hfe, List.take_succ, hj]
        simp [List.getLast?_append]
      · exact ih _ (fun r' hr' => hall r' (List.mem_cons_of_mem _ hr')) c h

/-- The lemma above on the file `"a\nb\n"` read with block size 2: both blocks hold a
newline, the last read is the end of the file, and both chunks end with a newline. -/
theorem readLoop_chunks_end_at_newline_example :
    ∀ c ∈ (readLoop 2 (readFile 2 [97, 10, 98, 10]) []).1, c.getLast? = some newline :=
  readLoop_chunks_end_at_newline 2 (readFile 2 [97, 10, 98, 10]) [] (by decide)

/-- What `processData` does to the filter: the guarded steps on the keys of the chunk. -/
theorem processData_eq (bf : BloomFilter) (data : Bytes) :
    processData bf data = testThenAddAll bf (chunkKeys data) :=
  processLines_eq (scanLines data) bf

/-- The defect of the read loop: a block read that is not empty and holds no newline
is passed to `pool.Add` whole, behind the residual, so that this chunk does not end
with a newline, whatever follows in the source. -/
theorem readLoop_block_without_newline (chunkSize : Nat) (r : ReadResult)
    (rest : List ReadResult) (ending : Bytes) (hne : r.data.take chunkSize ≠ [])
    (hno : newline ∉ r.data.take chunkSize) :
    (readLoop chunkSize (r :: rest) ending).1.head? = some (ending ++ r.data.take chunkSize) ∧
      (ending ++ r.data.take chunkSize).getLast? ≠ some newline := by
  have hlen : (r.data.take chunkSize).length = min r.data.length chunkSize := by
    rw [List.length_take, Nat.min_comm]
  have hpos : 0 < min r.data.length chunkSize := by
    rw [← hlen]; exact List.length_pos.mpr hne
  have hn : ¬ (min r.data.length chunkSize = 0 ∧ r.err = some ReadErr.eof) := by
    rintro ⟨h0, _⟩; omega
  have hscan : findEnd (fillBuf chunkSize r.data) (min r.data.length chunkSize)
      (min r.data.length chunkSize) = min r.data.length chunkSize := by
    apply findEnd_of_no_newline
    intro i hi hget
    have hi' : i < (r.data.take chunkSize).length := hlen ▸ hi
    unfold fillBuf at hget
    rw [List.getElem?_append_left hi', List.getElem?_eq_getElem hi'] at hget
    exact hno (Option.some.inj hget ▸ List.getElem_mem hi')
  have htake : (fillBuf chunkSize r.data).take (min r.data.length chunkSize) =
      r.data.take chunkSize := by
    unfold fillBuf
    rw [← hlen, List.take_left']
    rfl
  constructor
  · simp only [readLoop, hn, if_false, List.head?_cons, hscan, htake]
  · intro hlast
    rw [List.getLast?_append_of_ne_nil _ hne] at hlast
    exact hno (List.mem_of_getLast?_eq_some hlast)

/-- The reads of a file hand over exactly the bytes of the file, in order. -/
theorem fileReads_data (chunkSize : Nat) (hS : 1 ≤ chunkSize) :
    ∀ (fuel : Nat) (content : Bytes), content.length ≤ fuel →
      ((fileReads chunkSize fuel content).map (fun r => r.data)).flatten = content := by
  intro fuel
  induction fuel with
  | zero =>
    intro content h
    have : content = [] := List.length_eq_zero.mp (Nat.le_zero.mp h)
    simp [fileReads, this]
  | succ fuel ih =>
    intro content h
    cases content with
    | nil => simp [fileReads]
    | cons b bs =>
      have hdrop : ((b :: bs).drop chunkSize).length ≤ fuel := by
        rw [List.length_drop]
        simp only [List.length_cons] at h ⊢
        omega
      simp only [fileReads, List.isEmpty_cons, Bool.false_eq_true, if_false, List.map_cons,
        List.flatten_cons, ih _ hdrop]
      exact List.take_append_drop _ _

/-! ## Commutation and index safety -/

/-- Two bit sets of the same length with the same set bits are equal. -/
theorem bits_ext (a b : List Bool) (h : ∀ i : Nat, a[i]? = b[i]?) : a = b :=
  List.ext_getElem? h

/-- C19. On every well-formed filter both orders of `Add(x)` and `Add(y)` return, and
they return the same filter: the same bit set, the same `Count()`, and the same `m`,
`k` and hash functions. -/
theorem Add_comm (bf : BloomFilter) (hwf : bf.WF) (x y : Bytes) :
    ∃ sx sxy sy syx, bf.Add x = some sx ∧ sx.Add y = some sxy ∧
      bf.Add y = some sy ∧ sy.Add x = some syx ∧
      sxy.bitSet = syx.bitSet ∧ sxy.Count = syx.Count ∧ sxy = syx := by
  obtain ⟨sx, hx, hmx, hkx, hhx, _, hgx, hcx⟩ := Add_spec bf hwf x
  obtain ⟨sy, hy, hmy, hky, hhy, _, hgy, hcy⟩ := Add_spec bf hwf y
  obtain ⟨sxy, hxy, hmxy, hkxy, hhxy, _, hgxy, hcxy⟩ := Add_spec sx (Add_wf bf sx hwf x hx) y
  obtain ⟨syx, hyx, hmyx, hkyx, hhyx, _, hgyx, hcyx⟩ := Add_spec sy (Add_wf bf sy hwf y hy) x
  have hbits : sxy.bitSet = syx.bitSet := by
    apply bits_ext
    intro i
    rw [hgxy i, hgyx i, hgx i, hgy i, hhx, hhy, hmx, hmy]
    by_cases h1 : (bf.hashes.any fun h => bitPos bf.m x h == i) = true <;>
      by_cases h2 : (bf.hashes.any fun h => bitPos bf.m y h == i) = true <;>
      simp [h1, h2]
  have hcount : sxy.count = syx.count := by
    rw [hcxy, hcyx, hcx, hcy]
  refine ⟨sx, sxy, sy, syx, hx, hxy, hy, hyx, hbits, hcount, ?_⟩
  cases sxy
  cases syx
  simp only [BloomFilter.mk.injEq]
  simp only at hbits hcount hmxy hmyx hkxy hkyx hhxy hhyx
  exact ⟨hbits, hmxy.trans (hmx.trans (hmy.symm.trans hmyx.symm)),
    hkxy.trans (hkx.trans (hky.symm.trans hkyx.symm)), hcount,
    hhxy.trans (hhx.trans (hhy.symm.trans hhyx.symm))⟩

/-- Witness of C19 on the example filter and the keys `1` and `2`. -/
theorem Add_comm_witness :
    sampleFilter.WF ∧
      ∃ sx sxy sy syx, sampleFilter.Add [49] = some sx ∧ sx.Add [50] = some sxy ∧
        sampleFilter.Add [50] = some sy ∧ sy.Add [49] = some syx ∧
        sxy.bitSet = syx.bitSet ∧ sxy.Count = syx.Count ∧ sxy = syx :=
  ⟨sampleFilter_wf, Add_comm sampleFilter sampleFilter_wf [49] [50]⟩

/-- C20. In every state reached from a filter that `NewBloomFilter` returned without
error, and for every key: `m` is not zero, every position `Sum64() % m` that `Add` and
`Test` compute is below the length of the bit set, and both `Add` and `Test` return
without a panic. -/
theorem index_safety (fa : FloatArith) (n : Nat) (p : Float64) (hasher : Option Hasher)
    (bf0 : BloomFilter) (h0 : NewBloomFilter fa n p hasher = .ok bf0)
    (ops : List Op) (key : Bytes) :
    ∃ s, run bf0 ops = some s ∧ s.m ≠ 0 ∧ s.bitSet.length = s.m ∧
      (∀ h ∈ s.hashes, hashValue h key s.m = some (bitPos s.m key h) ∧
        bitPos s.m key h < s.bitSet.length) ∧
      (∃ s', s.Add key = some s') ∧ (∃ b, s.Test key = some b) := by
  have hwf := (NewBloomFilter_wf fa n p hasher bf0 h0).1
  obtain ⟨s, hs, hwfs, _⟩ := run_spec ops bf0 hwf
  obtain ⟨s', hs', _⟩ := Add_spec s hwfs key
  refine ⟨s, hs, Nat.one_le_iff_ne_zero.mp hwfs.1, hwfs.2.2.1, ?_, ⟨s', hs'⟩,
    ⟨_, Test_spec s hwfs key⟩⟩
  intro h _
  refine ⟨hashValue_eq h key hwfs.1, ?_⟩
  rw [hwfs.2.2.1]
  exact bitPos_lt key h hwfs.1

/-- Witness of C20 on the example filter after two operations, for the key `3`. -/
theorem index_safety_witness :
    NewBloomFilter sampleArith 10 fpRateMilli (some sumHasher) = .ok sampleFilter ∧
      ∃ s, run sampleFilter [Op.add [49], Op.test [50]] = some s ∧ s.m ≠ 0 ∧
        s.bitSet.length = s.m ∧
        (∀ h ∈ s.hashes, hashValue h [51] s.m = some (bitPos s.m [51] h) ∧
          bitPos s.m [51] h < s.bitSet.length) ∧
        (∃ s', s.Add [51] = some s') ∧ (∃ b, s.Test [51] = some b) :=
  ⟨rfl, index_safety sampleArith 10 fpRateMilli (some sumHasher) sampleFilter rfl
    [Op.add [49], Op.test [50]] [51]⟩

/-! ## The hasher -/

/-- The loop of `GetHashes` yields one function per index left, the one at offset `j`
seeded with the `uint32` of its index. -/
theorem getHashesFrom_spec (New64WithSeed : Nat → Hash64) :
    ∀ todo i : Nat, (getHashesFrom New64WithSeed todo i).length = todo ∧
      ∀ j, j < todo →
        (getHashesFrom New64WithSeed todo i)[j]? = some (New64WithSeed ((i + j) % uint32Size)) := by
  intro todo
  induction todo with
  | zero => intro i; exact ⟨rfl, fun j hj => absurd hj (Nat.not_lt_zero j)⟩
  | succ todo ih =>
    intro i
    obtain ⟨hlen, hget⟩ := ih (i + 1)
    refine ⟨by simp [getHashesFrom, hlen], ?_⟩
    intro j hj
    cases j with
    | zero => simp [getHashesFrom]
    | succ j =>
      simp only [getHashesFrom, List.getElem?_cons_succ]
      rw [hget j (Nat.lt_of_succ_lt_succ hj)]
      congr 3
      omega

/-- C17, as the code has it: for every `k`, `GetHashes(k)` returns exactly `k` hash
functions, the one at index `i` being the function seeded with `uint32(i)`, which is
`i` itself for `i < 2 ^ 32`; the result depends on `k` only, so two calls with the same
`k` return the same seeded family. -/
theorem GetHashes_seeded (New64WithSeed : Nat → Hash64) (k : Nat) :
    (Mur3Hasher.GetHashes New64WithSeed k).length = k ∧
      (∀ i, i < k →
        (Mur3Hasher.GetHashes New64WithSeed k)[i]? = some (New64WithSeed (i % uint32Size))) ∧
      (∀ i, i < k → i < uint32Size →
        (Mur3Hasher.GetHashes New64WithSeed k)[i]? = some (New64WithSeed i)) ∧
      (∀ k', k' = k →
        Mur3Hasher.GetHashes New64WithSeed k' = Mur3Hasher.GetHashes New64WithSeed k) := by
  obtain ⟨hlen, hget⟩ := getHashesFrom_spec New64WithSeed k 0
  refine ⟨hlen, ?_, ?_, fun k' hk => by rw [hk]⟩
  · intro i hi
    have := hget i hi
    rwa [Nat.zero_add] at this
  · intro i hi hlt
    have := hget i hi
    rwa [Nat.zero_add, Nat.mod_eq_of_lt hlt] at this

/-- C17 as stated fails from index `2 ^ 32` on: among the `2 ^ 32 + 1` functions of
`GetHashes(2 ^ 32 + 1)` the one at index `2 ^ 32` is seeded with 0, like the one at
index 0, and for a family whose seeds matter that is not the function seeded with
`2 ^ 32`. -/
theorem GetHashes_seed_wraps :
    (Mur3Hasher.GetHashes sumHash (uint32Size + 1))[uint32Size]? = some (sumHash 0) ∧
      (Mur3Hasher.GetHashes sumHash (uint32Size + 1))[uint32Size]? =
        (Mur3Hasher.GetHashes sumHash (uint32Size + 1))[0]? ∧
      (sumHash 0).Sum64 [] ≠ (sumHash uint32Size).Sum64 [] := by
  obtain ⟨_, hget, _, _⟩ := GetHashes_seeded sumHash (uint32Size + 1)
  have h1 := hget uint32Size (Nat.lt_succ_self _)
  have h0 := hget 0 (Nat.succ_pos _)
  rw [Nat.mod_self] at h1
  rw [Nat.zero_mod] at h0
  exact ⟨h1, h1.trans h0.symm, by decide⟩

/-! ## Byte conservation and read errors -/

/-- The chunks of the loop and the residual left hold, in order, the bytes of the
residual the loop started with and of the buffers of its iterations. -/
theorem readLoop_flatten (chunkSize : Nat) (reads : List ReadResult) :
    ∀ ending : Bytes,
      (readLoop chunkSize reads ending).1.flatten ++ (readLoop chunkSize reads ending).2 =
        ending ++ (loopBuffers chunkSize reads).flatten := by
  induction reads with
  | nil => intro ending; simp [readLoop, loopBuffers]
  | cons r rest ih =>
    intro ending
    by_cases hb : min r.data.length chunkSize = 0 ∧ r.err = some ReadErr.eof
    · simp [readLoop, loopBuffers, hb]
    · simp only [readLoop, loopBuffers, hb, if_false, List.flatten_cons, List.append_assoc]
      rw [ih, ← List.append_assoc (List.take _ _), List.take_append_drop]

/-- The chunks passed to `pool.Add` hold, in order, the bytes of the buffers of the
loop: the bytes read and, after a short read, the zero bytes behind them. -/
theorem deliveredChunks_flatten (chunkSize : Nat) (reads : List ReadResult) :
    (deliveredChunks chunkSize reads).flatten = (loopBuffers chunkSize reads).flatten := by
  have h := readLoop_flatten chunkSize reads []
  simp only [List.nil_append] at h
  unfold deliveredChunks
  by_cases hlen : (readLoop chunkSize reads []).2.length > 0
  · simp only [hlen, if_true, List.flatten_append, List.flatten_cons, List.flatten_nil,
      List.append_nil]
    exact h
  · have hnil : (readLoop chunkSize reads []).2 = [] :=
      List.length_eq_zero.mp (Nat.eq_zero_of_not_pos hlen)
    simp only [hlen, if_false]
    rw [← h, hnil, List.append_nil]

/-- C18 at the source `"a\n"` read with block size 3: the one read is short, the
residual kept is the zero byte behind the two bytes read, and the chunks passed to
`pool.Add` are `"a\n"` and that zero byte, one byte more than the source. -/
theorem short_read_keeps_zero_bytes :
    readFile 3 [97, 10] = [⟨[97, 10], none⟩, ⟨[], some ReadErr.eof⟩] ∧
      (readLoop 3 (readFile 3 [97, 10]) []).2 = [0] ∧
      deliveredChunks 3 (readFile 3 [97, 10]) = [[97, 10], [0]] ∧
      (deliveredChunks 3 (readFile 3 [97, 10])).flatten ≠ [97, 10] := by
  decide

/-- C13 at a source whose first read fails: the loop does not end at the error, it
passes on an empty chunk, keeps the whole zero buffer as residual and reads on; the
bytes read next are delivered behind those zero bytes, and `CountUniqueIPs` returns
a count and a nil error. -/
theorem read_error_is_dropped :
    deliveredChunks 4 [⟨[], some ReadErr.other⟩, ⟨[97, 10], none⟩] =
        [[], [0, 0, 0, 0, 97, 10], [0, 0]] ∧
      CountUniqueIPsWith 4 halfArith (some sumHasher)
        (.ok [⟨[], some ReadErr.other⟩, ⟨[97, 10], none⟩]) = some (2, none) := by
  refine ⟨by decide, ?_⟩
  decide

/-- As long as the reads fail with an error other than `io.EOF` the loop goes on: `k`
failing reads are `k` iterations, each passing a chunk to `pool.Add`. -/
theorem readLoop_runs_on_errors (chunkSize k : Nat) :
    ∀ ending : Bytes,
      (readLoop chunkSize (List.replicate k ⟨[], some ReadErr.other⟩) ending).1.length = k := by
  induction k with
  | zero => intro ending; rfl
  | succ k ih =>
    intro ending
    simp only [List.replicate_succ, readLoop, List.length_nil, Nat.zero_min]
    simp [ih]

/-- Whenever the file opens, the error `CountUniqueIPs` returns is nil, whatever the
reads returned. -/
theorem CountUniqueIPsWith_error_nil (chunkSize : Nat) (fa : FloatArith)
    (hasher : Option Hasher) (reads : List ReadResult) (count : Nat) (err : Option ReadErr)
    (h : CountUniqueIPsWith chunkSize fa hasher (.ok reads) = some (count, err)) :
    err = none := by
  unfold CountUniqueIPsWith at h
  split at h
  · cases h
  · simp only at h
    split at h
    · cases h
    · cases h; rfl

/-! ## Lines of a chunk -/

/-- Dropping a carriage return from the empty line leaves it empty. -/
theorem dropCR_nil : dropCR [] = [] := rfl

/-- The keys the scanner yields are the pieces between newlines, each without one
trailing carriage return, that are not empty, as long as every piece fits the buffer
of the scanner. -/
theorem scanFrom_keys (data : Bytes) :
    ∀ acc : Bytes,
      (∀ l ∈ List.splitOnP.go (fun b => b == newline) data acc, l.length < maxScanTokenSize) →
      (scanFrom data acc.reverse).filter (fun ip => ip.length ≠ 0) =
        ((List.splitOnP.go (fun b => b == newline) data acc).map dropCR).filter
          (fun ip => ip.length ≠ 0) := by
  induction data with
  | nil =>
    intro acc h
    have hlt : acc.reverse.length < maxScanTokenSize := h _ (by simp [List.splitOnP.go])
    by_cases he : acc.reverse = []
    · simp [scanFrom, List.splitOnP.go, he, dropCR_nil]
    · have : acc.reverse.isEmpty = false := by
        cases hr : acc.reverse with
        | nil => exact absurd hr he
        | cons _ _ => rfl
      simp only [scanFrom, this, Bool.false_eq_true, if_false, hlt, if_true, List.splitOnP.go,
        List.map_cons, List.map_nil]
  | cons b rest ih =>
    intro acc h
    by_cases hb : b = newline
    · have hsplit : List.splitOnP.go (fun b => b == newline) (b :: rest) acc =
          acc.reverse :: List.splitOnP.go (fun b => b == newline) rest [] := by
        simp [List.splitOnP.go, hb]
      rw [hsplit] at h ⊢
      have hlt : acc.reverse.length < maxScanTokenSize := h _ (List.mem_cons_self _ _)
      have hrest := ih [] (fun l hl => h l (List.mem_cons_of_mem _ hl))
      simp only [List.reverse_nil] at hrest
      simp only [scanFrom, hb, if_true, hlt, List.map_cons, List.filter_cons, hrest]
    · have hsplit : List.splitOnP.go (fun b => b == newline) (b :: rest) acc =
          List.splitOnP.go (fun b => b == newline) rest (b :: acc) := by
        simp [List.splitOnP.go, hb]
      rw [hsplit] at h ⊢
      have hrest := ih (b :: acc) h
      simp only [List.reverse_cons] at hrest
      simp only [scanFrom, hb, if_false, hrest]

/-- A line without a newline in it, followed by a newline, is one token when it fits
the buffer of the scanner, and otherwise ends the scan. -/
theorem scanFrom_line (line : Bytes) (rest : Bytes) (hline : newline ∉ line) :
    ∀ acc : Bytes,
      scanFrom (line ++ newline :: rest) acc =
        if (acc ++ line).length < maxScanTokenSize then dropCR (acc ++ line) :: scanFrom rest []
        else [] := by
  induction line with
  | nil => intro acc; simp [scanFrom]
  | cons b line ih =>
    intro acc
    have hb : b ≠ newline := fun h => hline (h ▸ List.mem_cons_self _ _)
    have hl : newline ∉ line := fun h => hline (List.mem_cons_of_mem _ h)
    simp only [List.cons_append, scanFrom, hb, if_false, List.append_eq]
    rw [ih hl (acc ++ [b])]
    simp [List.append_assoc]

/-- C12, as the code has it: on a chunk whose lines are all shorter than 65536 bytes,
`processData` does to the filter what the guarded step `if !Test(line) then Add(line)`
does, in order, for the pieces of the chunk between newlines, each without one
trailing carriage return, skipping the pieces that are then empty; the keys that
reach `Test` and `Add` are never empty. -/
theorem processData_lines (bf : BloomFilter) (data : Bytes)
    (hshort : ∀ line ∈ data.splitOn newline, line.length < maxScanTokenSize) :
    processData bf data = processLines bf ((data.splitOn newline).map dropCR) ∧
      processData bf data = testThenAddAll bf (chunkKeys data) ∧
      chunkKeys data = ((data.splitOn newline).map dropCR).filter (fun ip => ip.length ≠ 0) ∧
      ∀ ip ∈ chunkKeys data, ip ≠ [] := by
  have hkeys : chunkKeys data =
      ((data.splitOn newline).map dropCR).filter (fun ip => ip.length ≠ 0) := by
    have := scanFrom_keys data [] hshort
    simpa [chunkKeys, scanLines, List.splitOn, List.splitOnP] using this
  refine ⟨?_, processData_eq bf data, hkeys, ?_⟩
  · rw [processData_eq, processLines_eq, hkeys]
  · intro ip hip
    have := (List.mem_filter.mp hip).2
    intro hnil
    simp [hnil] at this

/-- Witness of C12 on the example filter and the chunk `"1\n\n2\r\n1"`. -/
theorem processData_lines_witness :
    processData sampleFilter [49, 10, 10, 50, 13, 10, 49] =
        processLines sampleFilter
          ((([49, 10, 10, 50, 13, 10, 49] : Bytes).splitOn newline).map dropCR) ∧
      processData sampleFilter [49, 10, 10, 50, 13, 10, 49] =
        testThenAddAll sampleFilter (chunkKeys [49, 10, 10, 50, 13, 10, 49]) ∧
      chunkKeys [49, 10, 10, 50, 13, 10, 49] =
        ((([49, 10, 10, 50, 13, 10, 49] : Bytes).splitOn newline).map dropCR).filter
          (fun ip => ip.length ≠ 0) ∧
      ∀ ip ∈ chunkKeys [49, 10, 10, 50, 13, 10, 49], ip ≠ [] :=
  processData_lines sampleFilter [49, 10, 10, 50, 13, 10, 49] (by decide)

/-- C12 as stated fails on lines that end with a carriage return and on long lines:
of the line `"a\r"` only `"a"` is the key; the line `"\r"`, which is not empty, reaches
neither `Test` nor `Add`; and a line of 65536 bytes ends the scan, so that neither it
nor the line `"b"` behind it is a key. -/
theorem chunkKeys_differ_from_lines :
    ([97, 13, 10] : Bytes).splitOn newline = [[97, 13], []] ∧
      chunkKeys [97, 13, 10] = [[97]] ∧
      ([13, 10] : Bytes).splitOn newline = [[13], []] ∧ chunkKeys [13, 10] = [] ∧
      newline ∉ List.replicate 65536 (97 : UInt8) ∧
      chunkKeys (List.replicate 65536 (97 : UInt8) ++ newline :: [98, 10]) = [] := by
  refine ⟨by decide, by decide, by decide, by decide, ?_, ?_⟩
  · intro h
    exact absurd (List.eq_of_mem_replicate h) (by decide)
  · have hno : newline ∉ List.replicate 65536 (97 : UInt8) := fun h =>
      absurd (List.eq_of_mem_replicate h) (by decide)
    have hlen : ¬ (([] : Bytes) ++ List.replicate 65536 (97 : UInt8)).length
        < maxScanTokenSize := by
      rw [List.nil_append, List.length_replicate]
      decide
    simp only [chunkKeys, scanLines, scanFrom_line _ _ hno [], hlen, if_false, List.filter_nil]

/-! ## The pool -/

/-- The sequential consumer returns on a well-formed filter, with a well-formed filter. -/
theorem processChunks_wf (chunks : List Bytes) :
    ∀ bf : BloomFilter, bf.WF → ∃ s, processChunks bf chunks = some s ∧ s.WF := by
  induction chunks with
  | nil => intro bf hwf; exact ⟨bf, rfl, hwf⟩
  | cons c rest ih =>
    intro bf hwf
    obtain ⟨s1, h1, hwf1, _⟩ := testThenAddAll_covers (chunkKeys c) bf hwf
    obtain ⟨s, h2, hwf2⟩ := ih s1 hwf1
    exact ⟨s, by simp [processChunks, processData_eq, h1, h2], hwf2⟩

/-- The loop of `Start` appends one open channel, with nothing sent, per worker. -/
theorem startLoop_eq (todo : Nat) :
    ∀ closers : List SignalChan,
      startLoop todo closers = closers ++ List.replicate todo ⟨0, false⟩ := by
  induction todo with
  | zero => intro closers; simp [startLoop]
  | succ todo ih =>
    intro closers
    rw [startLoop, ih, List.append_assoc]
    rfl

/-- On open channels the loop of `Finish` sends one signal on each. -/
theorem sendAll_open (closers : List SignalChan) (h : ∀ c ∈ closers, c.closed = false) :
    sendAll closers = some (closers.map fun c => ⟨c.sent + 1, false⟩) := by
  induction closers with
  | nil => rfl
  | cons c rest ih =>
    have hc : c.closed = false := h c (List.mem_cons_self _ _)
    have hrest := ih (fun d hd => h d (List.mem_cons_of_mem _ hd))
    cases c with
    | mk sent closed =>
      simp only at hc
      subst hc
      simp [sendAll, sendSignal, hrest]

/-- On open channels the deferred calls close each of them. -/
theorem closeAll_open (closers : List SignalChan) (h : ∀ c ∈ closers, c.closed = false) :
    closeAll closers = some (closers.map fun c => ⟨c.sent, true⟩) := by
  induction closers with
  | nil => rfl
  | cons c rest ih =>
    have hc : c.closed = false := h c (List.mem_cons_self _ _)
    have hrest := ih (fun d hd => h d (List.mem_cons_of_mem _ hd))
    cases c with
    | mk sent closed =>
      simp only at hc
      subst hc
      simp [closeAll, closeChan, hrest]

/-- Adding chunks to a pool whose channel `in` is open returns, and changes the queue
only. -/
theorem addChunks_open (chunks : List Bytes) :
    ∀ p : Pool, p.inClosed = false →
      ∃ p', p.addChunks chunks = some p' ∧ p'.inClosed = false ∧ p'.done = p.done ∧
        p'.workersClosers = p.workersClosers ∧ p'.finished = p.finished ∧ p'.bf = p.bf ∧
        p'.inQueue = p.inQueue ++ chunks := by
  induction chunks with
  | nil => intro p h; exact ⟨p, rfl, h, rfl, rfl, rfl, rfl, by simp⟩
  | cons c rest ih =>
    intro p h
    obtain ⟨p', h', hin, hd, hw, hf, hb, hq⟩ :=
      ih { p with inQueue := p.inQueue ++ [c] } h
    refine ⟨p', by simpa [Pool.addChunks, Pool.Add, h] using h', hin, hd, hw, hf, hb, ?_⟩
    simpa [List.append_assoc] using hq

/-- A `Finish` that returned has set `finished`, so that `Finish` on the pool it left
returns at once with the pool as it is. -/
theorem Finish_then_Finish (p p1 : Pool) (h : p.Finish = some p1) : p1.Finish = some p1 := by
  have hfin : p1.finished = true := by
    unfold Pool.Finish at h
    by_cases hf : p.finished = true
    · simp only [hf, if_true, Option.some.injEq] at h
      rw [← h]; exact hf
    · simp only [hf, if_false] at h
      cases hs : sendAll p.workersClosers with
      | none => simp [hs] at h
      | some signalled =>
        cases hp : p.drain with
        | none => simp [hs, hp] at h
        | some drained =>
          cases hc : closeAll signalled with
          | none => simp [hs, hp, hc] at h
          | some closers =>
            by_cases hin : p.inClosed = true
            · simp [hs, hp, hc, hin] at h
            · cases hd : closeChan p.done with
              | none => simp [hs, hp, hc, hin, hd] at h
              | some done =>
                simp only [hs, hp, hc, hin, hd, Bool.false_eq_true, if_false,
                  Option.some.injEq] at h
                rw [← h]
  simp [Pool.Finish, hfin]

/-- C14. On a pool made by `NewPool`, started, and fed any chunks, the first `Finish`
returns, having sent exactly one stop signal on every closer and closed every closer,
`p.in` and `p.done`; a `Finish` after it returns the pool as it is: no signal sent, no
channel closed, no panic, and `Count()` as it was. -/
theorem Finish_idempotent (workersCount readBufferSize : Nat) (bf : BloomFilter)
    (hwf : bf.WF) (chunks : List Bytes) :
    ∃ p p1, (NewPool workersCount readBufferSize bf).Start.addChunks chunks = some p ∧
      p.workersClosers = List.replicate workersCount ⟨0, false⟩ ∧
      p.Finish = some p1 ∧
      p1.workersClosers = List.replicate workersCount ⟨1, true⟩ ∧
      p1.inClosed = true ∧ p1.done = ⟨0, true⟩ ∧ p1.finished = true ∧
      p1.Finish = some p1 ∧
      ∀ p2, p1.Finish = some p2 → p2 = p1 ∧ p2.bf.Count = p1.bf.Count := by
  obtain ⟨p, hp, hin, hd, hw, hf, hb, hq⟩ :=
    addChunks_open chunks (NewPool workersCount readBufferSize bf).Start rfl
  have hclosers : p.workersClosers = List.replicate workersCount ⟨0, false⟩ := by
    rw [hw]
    show startLoop workersCount [] = _
    rw [startLoop_eq, List.nil_append]
  have hopen : ∀ c ∈ p.workersClosers, c.closed = false := by
    intro c hc
    rw [hclosers] at hc
    rw [List.eq_of_mem_replicate hc]
  have hsend := sendAll_open p.workersClosers hopen
  have hopen' : ∀ c ∈ p.workersClosers.map (fun c => (⟨c.sent + 1, false⟩ : SignalChan)),
      c.closed = false := by
    intro c hc
    obtain ⟨d, _, hd⟩ := List.mem_map.mp hc
    rw [← hd]
  have hclose := closeAll_open _ hopen'
  obtain ⟨s, hs, _⟩ := processChunks_wf p.inQueue p.bf (hb ▸ hwf)
  have hdrain : ∃ drained, p.drain = some drained := by
    unfold Pool.drain
    by_cases hempty : p.workersClosers.isEmpty = true
    · exact ⟨(p.bf, p.inQueue), by simp [hempty]⟩
    · exact ⟨(s, []), by simp [hempty, hs]⟩
  obtain ⟨drained, hdr⟩ := hdrain
  have hdone : p.done = ⟨0, false⟩ := hd
  have hfalse : p.finished = false := hf
  have hfinish : p.Finish = some
      { p with workersClosers := List.replicate workersCount ⟨1, true⟩, inQueue := drained.2,
               inClosed := true, done := ⟨0, true⟩, finished := true, bf := drained.1 } := by
    simp only [Pool.Finish, hfalse, Bool.false_eq_true, if_false, hsend, hdr, hclose, hin, hdone,
      closeChan, List.map_map]
    simp [hclosers]
  refine ⟨p, _, hp, hclosers, hfinish, rfl, rfl, rfl, rfl, Finish_then_Finish _ _ hfinish, ?_⟩
  intro p2 h2
  rw [Finish_then_Finish _ _ hfinish] at h2
  cases h2
  exact ⟨rfl, rfl⟩

/-- Witness of C14 on a pool of 3 workers over the example filter, fed two chunks. -/
theorem Finish_idempotent_witness :
    sampleFilter.WF ∧
      ∃ p p1, (NewPool 3 10 sampleFilter).Start.addChunks [[49, 10], [50, 10]] = some p ∧
        p.workersClosers = List.replicate 3 ⟨0, false⟩ ∧
        p.Finish = some p1 ∧
        p1.workersClosers = List.replicate 3 ⟨1, true⟩ ∧
        p1.inClosed = true ∧ p1.done = ⟨0, true⟩ ∧ p1.finished = true ∧
        p1.Finish = some p1 ∧
        ∀ p2, p1.Finish = some p2 → p2 = p1 ∧ p2.bf.Count = p1.bf.Count :=
  ⟨sampleFilter_wf, Finish_idempotent 3 10 sampleFilter sampleFilter_wf [[49, 10], [50, 10]]⟩

/-! ## The worker loop -/

/-- A step keeps the account of the channel. -/
theorem next_consistent (s s' : WorkerState) (e : Event) (h : s.next e = some s')
    (hc : s.Consistent) : s'.Consistent := by
  unfold WorkerState.Consistent at hc ⊢
  cases e with
  | recv =>
    simp only [WorkerState.next] at h
    split at h
    · cases h
    · cases hq : s.queue with
      | nil => simp [hq] at h
      | cons d rest =>
        simp only [hq, Option.some.injEq] at h
        subst h
        simp [hc, hq]
  | stop =>
    simp only [WorkerState.next] at h
    split at h
    · cases h
    · split at h
      · cases h; exact hc
      · cases h
  | dflt =>
    simp only [WorkerState.next] at h
    split at h
    · cases h
    · split at h
      · cases h; exact hc
      · cases h
  | check =>
    simp only [WorkerState.next] at h
    split at h
    · cases h
    · split at h
      · cases h; exact hc
      · cases h; exact hc
  | put d =>
    simp only [WorkerState.next, Option.some.injEq] at h
    subst h
    simp [hc]
  | take =>
    simp only [WorkerState.next] at h
    cases hq : s.queue with
    | nil => simp [hq] at h
    | cons d rest =>
      simp only [hq, Option.some.injEq] at h
      subst h
      simp [hc, hq]
  | signal =>
    simp only [WorkerState.next] at h
    split at h
    · cases h
    · cases h; exact hc

/-- A run from a start state keeps the account of the channel. -/
theorem runEvents_consistent (es : List Event) :
    ∀ s s' : WorkerState, s.runEvents es = some s' → s.Consistent → s'.Consistent := by
  induction es with
  | nil => intro s s' h hc; cases h; exact hc
  | cons e rest ih =>
    intro s s' h hc
    simp only [WorkerState.runEvents] at h
    cases hn : s.next e with
    | none => simp [hn] at h
    | some s1 =>
      simp only [hn] at h
      exact ih s1 s' h (next_consistent s s1 e hn hc)

/-- A step leaves `stopSignal` and `exited` set once they are set. -/
theorem next_monotone (s s' : WorkerState) (e : Event) (h : s.next e = some s') :
    (s.stopSignal = true → s'.stopSignal = true) ∧ (s.exited = true → s'.exited = true) := by
  cases e with
  | recv =>
    simp only [WorkerState.next] at h
    split at h
    · cases h
    · cases hq : s.queue with
      | nil => simp [hq] at h
      | cons d rest =>
        simp only [hq, Option.some.injEq] at h
        subst h
        exact ⟨id, id⟩
  | stop =>
    simp only [WorkerState.next] at h
    split at h
    · cases h
    · split at h
      · cases h; exact ⟨fun _ => rfl, id⟩
      · cases h
  | dflt =>
    simp only [WorkerState.next] at h
    split at h
    · cases h
    · split at h
      · cases h; exact ⟨id, id⟩
      · cases h
  | check =>
    simp only [WorkerState.next] at h
    split at h
    · cases h
    · split at h
      · cases h; exact ⟨id, fun _ => rfl⟩
      · cases h; exact ⟨id, id⟩
  | put d =>
    simp only [WorkerState.next, Option.some.injEq] at h
    subst h
    exact ⟨id, id⟩
  | take =>
    simp only [WorkerState.next] at h
    cases hq : s.queue with
    | nil => simp [hq] at h
    | cons d rest =>
      simp only [hq, Option.some.injEq] at h
      subst h
      exact ⟨id, id⟩
  | signal =>
    simp only [WorkerState.next] at h
    split at h
    · cases h
    · cases h; exact ⟨id, id⟩

/-- The step in which a worker exits is the `if` of its `default` case, taken with
`stopSignal` set and the queue empty; the queue is empty after it too. -/
theorem next_exit (s s' : WorkerState) (e : Event) (h : s.next e = some s')
    (h0 : s.exited = false) (h1 : s'.exited = true) :
    e = Event.check ∧ s.stopSignal = true ∧ s.queue = [] ∧ s'.queue = [] := by
  cases e with
  | recv =>
    simp only [WorkerState.next] at h
    split at h
    · cases h
    · cases hq : s.queue with
      | nil => simp [hq] at h
      | cons d rest =>
        simp only [hq, Option.some.injEq] at h
        subst h
        simp only at h1
        rw [h0] at h1; cases h1
  | stop =>
    simp only [WorkerState.next] at h
    split at h
    · cases h
    · split at h
      · cases h; simp only at h1; rw [h0] at h1; cases h1
      · cases h
  | dflt =>
    simp only [WorkerState.next] at h
    split at h
    · cases h
    · split at h
      · cases h; simp only at h1; rw [h0] at h1; cases h1
      · cases h
  | check =>
    simp only [WorkerState.next] at h
    split at h
    · cases h
    · split at h
      · rename_i hcond
        cases h
        simp only [Bool.and_eq_true, beq_iff_eq] at hcond
        have hq : s.queue = [] := List.length_eq_zero.mp hcond.2
        exact ⟨rfl, hcond.1, hq, hq⟩
      · cases h; simp only at h1; rw [h0] at h1; cases h1
  | put d =>
    simp only [WorkerState.next, Option.some.injEq] at h
    subst h
    simp only at h1; rw [h0] at h1; cases h1
  | take =>
    simp only [WorkerState.next] at h
    cases hq : s.queue with
    | nil => simp [hq] at h
    | cons d rest =>
      simp only [hq, Option.some.injEq] at h
      subst h
      simp only at h1; rw [h0] at h1; cases h1
  | signal =>
    simp only [WorkerState.next] at h
    split at h
    · cases h
    · cases h; simp only at h1; rw [h0] at h1; cases h1

/-- C15. Along every run of a worker from its start, whatever the reader, the other
workers and `Finish` do in between: a step never clears `stopSignal`; the phase stays
or moves from Running to Draining or from Draining to Stopped; and the step in which
the worker calls `wg.Done()` and exits is taken with `stopSignal` set and the queue
empty, so that every chunk sent on the channel before it has been received, and an
exited worker takes no further step of its own. -/
theorem cooperative_drain (waiting : List Bytes) (es : List Event) (e : Event)
    (s s' : WorkerState) (hrun : (WorkerState.init waiting).runEvents es = some s)
    (hstep : s.next e = some s') :
    (s.stopSignal = true → s'.stopSignal = true) ∧
    (s'.phase = s.phase ∨
      (s.phase = WorkerPhase.Running ∧ s'.phase = WorkerPhase.Draining) ∨
      (s.phase = WorkerPhase.Draining ∧ s'.phase = WorkerPhase.Stopped)) ∧
    (s.exited = false → s'.exited = true →
      e = Event.check ∧ s.stopSignal = true ∧ s.queue = [] ∧ s'.queue = [] ∧
        s'.enqueued = s'.dequeued) ∧
    (s.exited = true →
      s.next Event.recv = none ∧ s.next Event.stop = none ∧ s.next Event.dflt = none ∧
        s.next Event.check = none) := by
  have hcons : s.Consistent :=
    runEvents_consistent es _ s hrun (by simp [WorkerState.Consistent, WorkerState.init])
  have hcons' : s'.Consistent := next_consistent s s' e hstep hcons
  obtain ⟨hmono, hexit⟩ := next_monotone s s' e hstep
  have hex : s.exited = false → s'.exited = true →
      e = Event.check ∧ s.stopSignal = true ∧ s.queue = [] ∧ s'.queue = [] ∧
        s'.enqueued = s'.dequeued := by
    intro h0 h1
    obtain ⟨he, hs, hq, hq'⟩ := next_exit s s' e hstep h0 h1
    refine ⟨he, hs, hq, hq', ?_⟩
    have := hcons'
    unfold WorkerState.Consistent at this
    rw [this, hq', List.append_nil]
  refine ⟨hmono, ?_, hex, ?_⟩
  · unfold WorkerState.phase
    cases hx : s.exited
    · cases hx' : s'.exited
      · cases hs : s.stopSignal
        · cases hs' : s'.stopSignal
          · exact Or.inl rfl
          · exact Or.inr (Or.inl ⟨rfl, rfl⟩)
        · rw [hmono hs]; exact Or.inl rfl
      · obtain ⟨_, hs, _⟩ := hex hx hx'
        rw [hs]
        exact Or.inr (Or.inr ⟨rfl, rfl⟩)
    · rw [hexit hx]; exact Or.inl rfl
  · intro hx
    simp [WorkerState.next, hx]

/-- Witness of C15: a worker receives the one waiting chunk, sees its stop signal,
takes the `default` case and exits. -/
theorem cooperative_drain_witness :
    (WorkerState.init [[49, 10]]).runEvents
        [Event.recv, Event.signal, Event.stop, Event.dflt] = some sampleDraining ∧
      sampleDraining.next Event.check = some sampleStopped ∧
      (sampleDraining.stopSignal = true → sampleStopped.stopSignal = true) ∧
      (sampleStopped.phase = sampleDraining.phase ∨
        (sampleDraining.phase = WorkerPhase.Running ∧
          sampleStopped.phase = WorkerPhase.Draining) ∨
        (sampleDraining.phase = WorkerPhase.Draining ∧
          sampleStopped.phase = WorkerPhase.Stopped)) ∧
      (sampleDraining.exited = false → sampleStopped.exited = true →
        Event.check = Event.check ∧ sampleDraining.stopSignal = true ∧
          sampleDraining.queue = [] ∧ sampleStopped.queue = [] ∧
          sampleStopped.enqueued = sampleStopped.dequeued) ∧
      (sampleDraining.exited = true →
        sampleDraining.next Event.recv = none ∧ sampleDraining.next Event.stop = none ∧
          sampleDraining.next Event.dflt = none ∧ sampleDraining.next Event.check = none) :=
  ⟨by decide, by decide,
    cooperative_drain [[49, 10]] [Event.recv, Event.signal, Event.stop, Event.dflt] Event.check
      sampleDraining sampleStopped (by decide) (by decide)⟩

/-! ## The end-to-end example -/

/-- The model of the library gives the values of the library's own test vectors, for
the seeds 0, 1 and 42 and inputs of up to three blocks. -/
theorem murmur3_test_vectors :
    Sum128 0 [] = (0, 0) ∧
      Sum128 0 [104, 101, 108, 108, 111] = (0xcbd8a7b341bd9b02, 0x5b1e906a48ae1d19) ∧
      Sum128 0 [104, 101, 108, 108, 111, 44, 32, 119, 111, 114, 108, 100] =
        (0x342fac623a5ebc8e, 0x4cdcbc079642414d) ∧
      Sum128 0 [49, 57, 32, 74, 97, 110, 32, 50, 48, 51, 56, 32, 97, 116, 32, 51, 58, 49, 52,
          58, 48, 55, 32, 65, 77] = (0xb89e5988b737affc, 0x664fc2950231b2cb) ∧
      Sum128 1 [] = (0x4610abe56eff5cb5, 0x51622daa78f83583) ∧
      Sum128 1 [104, 101, 108, 108, 111] = (0xa78ddff5adae8d10, 0x128900ef20900135) ∧
      Sum128 42 [] = (0xf02aa77dfa1b8523, 0xd1016610da11cbb9) ∧
      Sum128 42 [104, 101, 108, 108, 111] = (0xc4b8b3c960af6f08, 0x2334b875b0efbc7a) := by
  decide

/-- The formula for `m` at `N = 10` and the `float64` nearest to `0.001` is worth 144
over the reals. -/
theorem bitSetSize_formula_milli :
    ⌈-1 * ((10 : Nat) : ℝ) * Real.log (((4611686018427388 : Int) : ℝ) * (2 : ℝ) ^ (-62 : Int)) /
      Real.log 2 ^ 2⌉₊ = 144 := by
  have hL0 := Real.log_two_gt_d9
  have hL1 := Real.log_two_lt_d9
  have hpos : 0 < Real.log 2 := Real.log_pos (by norm_num)
  -- the rate is `c * 2 ^ (-10)` with `c` just above 1.024
  have hc : ((4611686018427388 : Int) : ℝ) * (2 : ℝ) ^ (-62 : Int) =
      (4611686018427388 / 4503599627370496 : ℝ) * ((2 : ℝ) ^ (10 : ℕ))⁻¹ := by
    norm_num [zpow_neg]
  have hcpos : (0 : ℝ) < 4611686018427388 / 4503599627370496 := by norm_num
  have hlog : Real.log (((4611686018427388 : Int) : ℝ) * (2 : ℝ) ^ (-62 : Int)) =
      Real.log (4611686018427388 / 4503599627370496 : ℝ) - 10 * Real.log 2 := by
    rw [hc, Real.log_mul hcpos.ne' (by positivity), Real.log_inv, Real.log_pow]
    push_cast
    ring
  have hup : Real.log (4611686018427388 / 4503599627370496 : ℝ) ≤
      4611686018427388 / 4503599627370496 - 1 := Real.log_le_sub_one_of_pos hcpos
  have hlow : 1 - (4611686018427388 / 4503599627370496 : ℝ)⁻¹ ≤
      Real.log (4611686018427388 / 4503599627370496 : ℝ) := Real.one_sub_inv_le_log_of_pos hcpos
  have hsq0 : (0.6931471803 : ℝ) ^ 2 < Real.log 2 ^ 2 := by
    apply pow_lt_pow_left₀ hL0 (by norm_num) (by norm_num)
  have hsq1 : Real.log 2 ^ 2 < (0.6931471808 : ℝ) ^ 2 := by
    apply pow_lt_pow_left₀ hL1 hpos.le (by norm_num)
  have hsqpos : 0 < Real.log 2 ^ 2 := by positivity
  rw [hlog, Nat.ceil_eq_iff (by decide)]
  constructor
  · rw [lt_div_iff₀ hsqpos]
    norm_num at hup hlow hsq0 hsq1 ⊢
    nlinarith
  · rw [div_le_iff₀ hsqpos]
    norm_num at hup hlow hsq0 hsq1 ⊢
    nlinarith

/-- The formula for `k` at `m = 144`, `N = 10` is worth 10 over the reals. -/
theorem hashCount_formula_milli :
    ⌈((144 : Nat) : ℝ) / ((10 : Nat) : ℝ) * Real.log 2⌉₊ = 10 := by
  have hL0 := Real.log_two_gt_d9
  have hL1 := Real.log_two_lt_d9
  rw [Nat.ceil_eq_iff (by decide)]
  constructor
  · norm_num; linarith
  · norm_num; linarith

/-- With the `float64` expressions read over the reals, `getOptimalParams` sizes a
filter for 10 elements at the rate 0.001 with 144 bits and 10 hash functions. -/
theorem getOptimalParams_milli (fa : FloatArith)
    (hex : fa.ExactAt 10 4611686018427388 (-62) 144) :
    getOptimalParams fa 10 fpRateMilli = (144, 10) := by
  obtain ⟨hM, hK⟩ := hex
  rw [bitSetSize_formula_milli] at hM
  rw [hashCount_formula_milli] at hK
  have hM' : fa.bitSetSize 10 fpRateMilli = 144 := hM
  rw [getOptimalParams_eq, hM']
  have h144 : max 1 (144 % uint64Size) = 144 := by decide
  rw [h144, hK]
  decide

set_option maxRecDepth 100000 in
/-- The example filter under the guarded steps on the example lines ends with
`Count()` at 2. -/
theorem exampleFilter_count :
    (processLines exampleFilter exampleLines).map BloomFilter.Count = some 2 := by
  decide

/-- C16. With the `float64` expressions read over the reals, `NewBloomFilter` for 10
elements at the rate 0.001 over the murmur3 hasher returns a filter of 144 bits and
10 hash functions, and the guarded steps on the lines `1.1.1.1`, `2.2.2.2`,
`1.1.1.1` and the empty line, in this order, return with `Count() = 2`. -/
theorem end_to_end_example (fa : FloatArith)
    (hex : fa.ExactAt 10 4611686018427388 (-62) 144) :
    ∃ bf0 s, NewBloomFilter fa 10 fpRateMilli (some MurMur3Hasher) = .ok bf0 ∧
      bf0.m = 144 ∧ bf0.k = 10 ∧
      processLines bf0 exampleLines = some s ∧ s.Count = 2 := by
  have hsize := getOptimalParams_milli fa hex
  have hnew : NewBloomFilter fa 10 fpRateMilli (some MurMur3Hasher) = .ok exampleFilter := by
    have h1 : (fpRateMilli.le Float64.zero || fpRateMilli.ge Float64.one) = false := by decide
    simp only [NewBloomFilter, h1, hsize]
    rfl
  have hcount := exampleFilter_count
  cases hrun : processLines exampleFilter exampleLines with
  | none => rw [hrun] at hcount; cases hcount
  | some s =>
    rw [hrun] at hcount
    exact ⟨exampleFilter, s, hnew, rfl, rfl, hrun, Option.some.inj hcount⟩

/-- Witness of C16 with a stand-in for the `float64` expressions that gives their
values 144 and 10. -/
theorem end_to_end_example_witness :
    milliArith.ExactAt 10 4611686018427388 (-62) 144 ∧
      ∃ bf0 s, NewBloomFilter milliArith 10 fpRateMilli (some MurMur3Hasher) = .ok bf0 ∧
        bf0.m = 144 ∧ bf0.k = 10 ∧
        processLines bf0 exampleLines = some s ∧ s.Count = 2 :=
  have hex : milliArith.ExactAt 10 4611686018427388 (-62) 144 :=
    ⟨bitSetSize_formula_milli.symm, hashCount_formula_milli.symm⟩
  ⟨hex, end_to_end_example milliArith hex⟩

/-! ## Several workers -/

/-- Replacing one entry of a list changes the sum over the list by the difference of
the two entries. -/
theorem sum_map_set {α : Type} (f : α → Nat) :
    ∀ (l : List α) (i : Nat) (old new : α), l[i]? = some old →
      ((l.set i new).map f).sum + f old = (l.map f).sum + f new := by
  intro l
  induction l with
  | nil => intro i old new h; simp at h
  | cons a rest ih =>
    intro i old new h
    cases i with
    | zero =>
      simp only [List.getElem?_cons_zero, Option.some.injEq] at h
      subst h
      simp only [List.set_cons_zero, List.map_cons, List.sum_cons]
      omega
    | succ i =>
      simp only [List.getElem?_cons_succ] at h
      have := ih i old new h
      simp only [List.set_cons_succ, List.map_cons, List.sum_cons]
      omega

/-- An entry other than the replaced one is where it was. -/
theorem getElem?_set_other {α : Type} (l : List α) (i j : Nat) (new : α) (hij : j ≠ i) :
    (l.set i new)[j]? = l[j]? := by
  rw [List.getElem?_set]
  simp [Ne.symm hij]

/-- The replaced entry is the new one. -/
theorem getElem?_set_same {α : Type} (l : List α) (i : Nat) (old new : α)
    (h : l[i]? = some old) : (l.set i new)[i]? = some new := by
  have hi : i < l.length := by
    rcases Nat.lt_or_ge i l.length with hlt | hge
    · exact hlt
    · rw [List.getElem?_eq_none hge] at h; cases h
  rw [List.getElem?_set]
  simp [hi]

/-- A property of all tasks holds after one task is replaced by a task that has it. -/
theorem own_after_set (workers : List WorkerTask) (w : Nat) (old new : WorkerTask)
    (hw : workers[w]? = some old) (P : WorkerTask → Prop)
    (hold : ∀ (j : Nat) (task : WorkerTask), workers[j]? = some task → P task) (hnew : P new) :
    ∀ (j : Nat) (task : WorkerTask), (workers.set w new)[j]? = some task → P task := by
  intro j task hj
  by_cases hjw : j = w
  · subst hjw
    rw [getElem?_set_same workers j old new hw] at hj
    cases hj
    exact hnew
  · rw [getElem?_set_other workers w j new hjw] at hj
    exact hold j task hj

/-- A key that was added or is held by a task is still so after one task is replaced,
when the new task, or the keys added, hold what the old task held of it. -/
theorem seen_after_set (workers : List WorkerTask) (w : Nat) (old new : WorkerTask)
    (hw : workers[w]? = some old) (x : Bytes) (added added' : List Bytes)
    (hadd : x ∈ added → x ∈ added')
    (hold : x ∈ added ∨ ∃ (j : Nat) (task : WorkerTask),
      workers[j]? = some task ∧ (task.pending = some x ∨ x ∈ task.todo))
    (hmove : (old.pending = some x ∨ x ∈ old.todo) →
      x ∈ added' ∨ (new.pending = some x ∨ x ∈ new.todo)) :
    x ∈ added' ∨ ∃ (j : Nat) (task : WorkerTask),
      (workers.set w new)[j]? = some task ∧ (task.pending = some x ∨ x ∈ task.todo) := by
  rcases hold with h | ⟨j, task, hj, hx⟩
  · exact Or.inl (hadd h)
  · by_cases hjw : j = w
    · subst hjw
      rw [hw] at hj
      cases hj
      rcases hmove hx with h | h
      · exact Or.inl h
      · exact Or.inr ⟨j, new, getElem?_set_same workers j old new hw, h⟩
    · exact Or.inr ⟨j, task, by rw [getElem?_set_other workers w j new hjw]; exact hj, hx⟩

/-- One action of a worker returns and keeps the invariant of the run. -/
theorem act_inv (m : Nat) (hashes : List Hash64) (keys : List Bytes)
    (hpriv : PrivateBits m hashes keys) (hne : ∀ x ∈ keys, x.length ≠ 0)
    (hlen : keys.length < uint64Size) (st : PoolRun) (added : List Bytes)
    (inv : RunInv m hashes keys st added) (w : Nat) :
    ∃ st' added', st.act w = some st' ∧ RunInv m hashes keys st' added' := by
  unfold PoolRun.act
  cases hw : st.workers[w]? with
  | none => exact ⟨st, added, rfl, inv⟩
  | some task =>
    obtain ⟨hownp, hownt⟩ := inv.own w task hw
    obtain ⟨pending, todo⟩ := task
    cases pending with
    | some ip =>
      -- the worker adds its pending key
      obtain ⟨s, hs, hsm, _, hsh, _, hsget, hsc⟩ := Add_spec st.bf inv.wf ip
      have hsum := sum_map_set taskWork st.workers w ⟨some ip, todo⟩ ⟨none, todo⟩ hw
      have hwork : taskWork ⟨some ip, todo⟩ = taskWork ⟨none, todo⟩ + 1 := by
        simp [taskWork]; omega
      have hb := inv.bound
      refine ⟨⟨s, st.workers.set w ⟨none, todo⟩⟩, added ++ [ip], by simp [hs], ?_⟩
      refine ⟨Add_wf st.bf s inv.wf ip hs, hsm.trans inv.hm, hsh.trans inv.hh, ?_, ?_, ?_, ?_, ?_, ?_⟩
      · intro a ha
        rcases List.mem_append.mp ha with h | h
        · exact inv.sub a h
        · rw [List.mem_singleton.mp h]; exact hownp ip rfl
      · show s.count = (added ++ [ip]).length
        rw [hsc, inv.count, List.length_append, List.length_singleton]
        apply Nat.mod_eq_of_lt
        omega
      · show (added ++ [ip]).length + ((st.workers.set w ⟨none, todo⟩).map taskWork).sum ≤ _
        rw [List.length_append, List.length_singleton]
        omega
      · intro i hi
        show ∃ a ∈ added ++ [ip], ∃ h ∈ hashes, bitPos m a h = i
        have hi' : s.bitSet[i]? = some true := hi
        rw [hsget i] at hi'
        by_cases hany : (st.bf.hashes.any fun h => bitPos st.bf.m ip h == i) = true
        · obtain ⟨h, hh, hpos⟩ := List.any_eq_true.mp hany
          rw [inv.hh] at hh
          rw [inv.hm] at hpos
          exact ⟨ip, List.mem_append_right _ (List.mem_singleton_self _), h, hh,
            by simpa using hpos⟩
        · simp only [hany, if_false] at hi'
          obtain ⟨a, ha, h, hh, hpos⟩ := inv.bits i hi'
          exact ⟨a, List.mem_append_left _ ha, h, hh, hpos⟩
      · intro x hx
        refine seen_after_set st.workers w ⟨some ip, todo⟩ ⟨none, todo⟩ hw x added (added ++ [ip])
          (fun h => List.mem_append_left _ h) (inv.seen x hx) ?_
        rintro (h | h)
        · simp only [Option.some.injEq] at h
          subst h
          exact Or.inl (List.mem_append_right _ (List.mem_singleton_self _))
        · exact Or.inr (Or.inr h)
      · exact own_after_set st.workers w ⟨some ip, todo⟩ ⟨none, todo⟩ hw
          (fun task => (∀ x, task.pending = some x → x ∈ keys) ∧
            (∀ x ∈ task.todo, x.length ≠ 0 → x ∈ keys))
          inv.own ⟨fun x h => (by cases h), hownt⟩
    | none =>
      cases todo with
      | nil => exact ⟨st, added, rfl, inv⟩
      | cons ip rest =>
        have hrest : ∀ x ∈ rest, x.length ≠ 0 → x ∈ keys :=
          fun x hx => hownt x (List.mem_cons_of_mem _ hx)
        by_cases hip : ip.length = 0
        · -- an empty line is skipped
          have hsum := sum_map_set taskWork st.workers w ⟨none, ip :: rest⟩ ⟨none, rest⟩ hw
          have hnil : ip = [] := List.length_eq_zero.mp hip
          have hwork : taskWork ⟨none, ip :: rest⟩ = taskWork ⟨none, rest⟩ := by
            simp [taskWork, hnil]
          have hb := inv.bound
          refine ⟨⟨st.bf, st.workers.set w ⟨none, rest⟩⟩, added, by simp [hip], ?_⟩
          refine ⟨inv.wf, inv.hm, inv.hh, inv.sub, inv.count, ?_, inv.bits, ?_, ?_⟩
          · show added.length + ((st.workers.set w ⟨none, rest⟩).map taskWork).sum ≤ _
            omega
          · intro x hx
            refine seen_after_set st.workers w ⟨none, ip :: rest⟩ ⟨none, rest⟩ hw x added added
              id (inv.seen x hx) ?_
            rintro (h | h)
            · cases h
            · rcases List.mem_cons.mp h with h | h
              · exact absurd (h ▸ hip) (hne x hx)
              · exact Or.inr (Or.inr h)
          · exact own_after_set st.workers w ⟨none, ip :: rest⟩ ⟨none, rest⟩ hw
              (fun task => (∀ x, task.pending = some x → x ∈ keys) ∧
                (∀ x ∈ task.todo, x.length ≠ 0 → x ∈ keys))
              inv.own ⟨fun x h => (by cases h), hrest⟩
        · have hipk : ip ∈ keys := hownt ip (List.mem_cons_self _ _) hip
          have hnn : ip ≠ [] := fun h => hip (by rw [h]; rfl)
          have hwork : taskWork ⟨none, ip :: rest⟩ = taskWork ⟨none, rest⟩ + 1 := by
            simp [taskWork, hnn]
          have hb := inv.bound
          cases hb' : st.bf.hashes.all
              (fun h => st.bf.bitSet[bitPos st.bf.m ip h]? == some true) with
          | true =>
            -- the test is true: the key was added before
            have ht : st.bf.Test ip = some true := by rw [Test_spec st.bf inv.wf ip, hb']
            have hcov : st.bf.covers ip := (Test_true_iff st.bf inv.wf ip).mp ht
            have hadded : ip ∈ added := by
              obtain ⟨h0, hh0, huniq⟩ := hpriv ip hipk
              have hbit := hcov h0 (inv.hh ▸ hh0)
              rw [inv.hm] at hbit
              obtain ⟨a, ha, h', hh', hpos⟩ := inv.bits _ hbit
              by_cases hax : a = ip
              · exact hax ▸ ha
              · exact absurd hpos (huniq a (inv.sub a ha) hax h' hh')
            have hsum := sum_map_set taskWork st.workers w ⟨none, ip :: rest⟩ ⟨none, rest⟩ hw
            refine ⟨⟨st.bf, st.workers.set w ⟨none, rest⟩⟩, added, by simp [hip, ht], ?_⟩
            refine ⟨inv.wf, inv.hm, inv.hh, inv.sub, inv.count, ?_, inv.bits, ?_, ?_⟩
            · show added.length + ((st.workers.set w ⟨none, rest⟩).map taskWork).sum ≤ _
              omega
            · intro x hx
              refine seen_after_set st.workers w ⟨none, ip :: rest⟩ ⟨none, rest⟩ hw x added
                added id (inv.seen x hx) ?_
              rintro (h | h)
              · cases h
              · rcases List.mem_cons.mp h with h | h
                · exact Or.inl (h ▸ hadded)
                · exact Or.inr (Or.inr h)
            · exact own_after_set st.workers w ⟨none, ip :: rest⟩ ⟨none, rest⟩ hw
                (fun task => (∀ x, task.pending = some x → x ∈ keys) ∧
                  (∀ x ∈ task.todo, x.length ≠ 0 → x ∈ keys))
                inv.own ⟨fun x h => (by cases h), hrest⟩
          | false =>
            -- the test is false: the key is kept as pending
            have ht : st.bf.Test ip = some false := by rw [Test_spec st.bf inv.wf ip, hb']
            have hsum := sum_map_set taskWork st.workers w ⟨none, ip :: rest⟩ ⟨some ip, rest⟩ hw
            have hwork' : taskWork ⟨some ip, rest⟩ = taskWork ⟨none, rest⟩ + 1 := by
              simp [taskWork]; omega
            refine ⟨⟨st.bf, st.workers.set w ⟨some ip, rest⟩⟩, added, by simp [hip, ht], ?_⟩
            refine ⟨inv.wf, inv.hm, inv.hh, inv.sub, inv.count, ?_, inv.bits, ?_, ?_⟩
            · show added.length + ((st.workers.set w ⟨some ip, rest⟩).map taskWork).sum ≤ _
              omega
            · intro x hx
              refine seen_after_set st.workers w ⟨none, ip :: rest⟩ ⟨some ip, rest⟩ hw x added
                added id (inv.seen x hx) ?_
              rintro (h | h)
              · cases h
              · rcases List.mem_cons.mp h with h | h
                · exact Or.inr (Or.inl (by rw [h]))
                · exact Or.inr (Or.inr h)
            · exact own_after_set st.workers w ⟨none, ip :: rest⟩ ⟨some ip, rest⟩ hw
                (fun task => (∀ x, task.pending = some x → x ∈ keys) ∧
                  (∀ x ∈ task.todo, x.length ≠ 0 → x ∈ keys))
                inv.own ⟨fun x h => (by cases h; exact hipk), hrest⟩

/-- A run of the workers along any schedule returns and keeps the invariant. -/
theorem schedule_inv (m : Nat) (hashes : List Hash64) (keys : List Bytes)
    (hpriv : PrivateBits m hashes keys) (hne : ∀ x ∈ keys, x.length ≠ 0)
    (hlen : keys.length < uint64Size) (sched : List Nat) :
    ∀ (st : PoolRun) (added : List Bytes), RunInv m hashes keys st added →
      ∃ st' added', st.schedule sched = some st' ∧ RunInv m hashes keys st' added' := by
  induction sched with
  | nil => intro st added inv; exact ⟨st, added, rfl, inv⟩
  | cons w rest ih =>
    intro st added inv
    obtain ⟨st1, added1, h1, inv1⟩ := act_inv m hashes keys hpriv hne hlen st added inv w
    obtain ⟨st2, added2, h2, inv2⟩ := ih st1 added1 inv1
    exact ⟨st2, added2, by simp [PoolRun.schedule, h1, h2], inv2⟩

/-- Once every worker is through, the invariant gives `Count()` at least the number
of distinct keys. -/
theorem finished_count (m : Nat) (hashes : List Hash64) (keys : List Bytes) (st : PoolRun)
    (added : List Bytes) (inv : RunInv m hashes keys st added) (hfin : st.Finished) :
    keys.dedup.length ≤ st.bf.Count := by
  have hall : ∀ x ∈ keys, x ∈ added := by
    intro x hx
    rcases inv.seen x hx with h | ⟨j, task, hj, hp⟩
    · exact h
    · have hmem : task ∈ st.workers := List.getElem?_mem hj
      obtain ⟨hp0, ht0⟩ := hfin task hmem
      rcases hp with h | h
      · rw [hp0] at h; cases h
      · rw [ht0] at h; cases h
  show keys.dedup.length ≤ st.bf.count
  rw [inv.count, ← List.card_toFinset]
  calc keys.toFinset.card ≤ added.toFinset.card := by
        apply Finset.card_le_card
        intro x hx
        rw [List.mem_toFinset] at hx ⊢
        exact hall x hx
    _ ≤ added.length := List.toFinset_card_le added

/-- The filter `NewBloomFilter` returns has no bit set. -/
theorem NewBloomFilter_fresh (fa : FloatArith) (n : Nat) (p : Float64) (hasher : Option Hasher)
    (bf : BloomFilter) (h : NewBloomFilter fa n p hasher = .ok bf) :
    ∀ i : Nat, bf.bitSet[i]? ≠ some true := by
  unfold NewBloomFilter at h
  split at h
  · cases h
  · split at h
    · cases h
    · cases hasher with
      | none => cases h
      | some g =>
        simp only [Except.ok.injEq] at h
        subst h
        intro i hi
        have hi' : (List.replicate (getOptimalParams fa n p).1 false)[i]? = some true := hi
        rw [List.getElem?_replicate] at hi'
        split at hi' <;> cases hi'

/-- The guarded steps the workers have to make at the start are as many as the keys. -/
theorem start_work (lines : List (List Bytes)) :
    ((lines.map fun todo => (⟨none, todo⟩ : WorkerTask)).map taskWork).sum =
      (keysOf lines).length := by
  induction lines with
  | nil => rfl
  | cons todo rest ih =>
    simp only [List.map_cons, List.sum_cons, ih, keysOf, List.flatten_cons, List.filter_append,
      List.length_append]
    simp [taskWork]

/-- The invariant holds at the start of a run on a fresh filter. -/
theorem start_inv (fa : FloatArith) (n : Nat) (p : Float64) (hasher : Option Hasher)
    (bf0 : BloomFilter) (h0 : NewBloomFilter fa n p hasher = .ok bf0)
    (lines : List (List Bytes)) :
    RunInv bf0.m bf0.hashes (keysOf lines) (PoolRun.start bf0 lines) [] := by
  obtain ⟨hwf, hzero⟩ := NewBloomFilter_wf fa n p hasher bf0 h0
  refine ⟨hwf, rfl, rfl, fun a ha => (by cases ha), hzero, ?_, ?_, ?_, ?_⟩
  · show 0 + ((lines.map fun todo => (⟨none, todo⟩ : WorkerTask)).map taskWork).sum ≤ _
    rw [start_work, Nat.zero_add]
  · intro i hi
    exact absurd hi (NewBloomFilter_fresh fa n p hasher bf0 h0 i)
  · intro x hx
    have hx' : x ∈ lines.flatten := (List.mem_filter.mp hx).1
    obtain ⟨todo, htodo, hxt⟩ := List.mem_flatten.mp hx'
    obtain ⟨j, hj, hget⟩ := List.mem_iff_getElem.mp htodo
    refine Or.inr ⟨j, ⟨none, todo⟩, ?_, Or.inr hxt⟩
    show (lines.map fun todo => (⟨none, todo⟩ : WorkerTask))[j]? = some ⟨none, todo⟩
    rw [List.getElem?_map, List.getElem?_eq_getElem hj, hget]
    rfl
  · intro j task hj
    have hj' : (lines.map fun todo => (⟨none, todo⟩ : WorkerTask))[j]? = some task := hj
    rw [List.getElem?_map] at hj'
    cases hl : lines[j]? with
    | none => rw [hl] at hj'; cases hj'
    | some todo =>
      rw [hl] at hj'
      simp only [Option.map_some', Option.some.injEq] at hj'
      subst hj'
      refine ⟨fun x h => (by cases h), ?_⟩
      intro x hx hne
      have hmem : todo ∈ lines := List.getElem?_mem hl
      exact List.mem_filter.mpr ⟨List.mem_flatten.mpr ⟨todo, hmem, hx⟩, by simpa using hne⟩

/-- A single worker can be scheduled so that it does what `processLines` does. -/
theorem single_worker (todo : List Bytes) :
    ∀ bf : BloomFilter, ∃ sched : List Nat,
      (PoolRun.start bf [todo]).schedule sched =
        (processLines bf todo).map fun s => PoolRun.start s [[]] := by
  induction todo with
  | nil => intro bf; exact ⟨[], rfl⟩
  | cons ip rest ih =>
    intro bf
    by_cases hip : ip.length = 0
    · obtain ⟨sched, hs⟩ := ih bf
      refine ⟨0 :: sched, ?_⟩
      have hact : (PoolRun.start bf [ip :: rest]).act 0 = some (PoolRun.start bf [rest]) := by
        simp [PoolRun.act, PoolRun.start, hip]
      simp only [PoolRun.schedule, hact, hs, processLines, hip, if_true]
    · cases ht : bf.Test ip with
      | none =>
        refine ⟨[0], ?_⟩
        have hact : (PoolRun.start bf [ip :: rest]).act 0 = none := by
          simp [PoolRun.act, PoolRun.start, hip, ht]
        simp [PoolRun.schedule, hact, processLines, hip, testThenAdd, ht]
      | some b =>
        cases b with
        | true =>
          obtain ⟨sched, hs⟩ := ih bf
          refine ⟨0 :: sched, ?_⟩
          have hact : (PoolRun.start bf [ip :: rest]).act 0 = some (PoolRun.start bf [rest]) := by
            simp [PoolRun.act, PoolRun.start, hip, ht]
          simp only [PoolRun.schedule, hact, hs, processLines, hip, if_false, testThenAdd, ht]
        | false =>
          have hact : (PoolRun.start bf [ip :: rest]).act 0 =
              some ⟨bf, [⟨some ip, rest⟩]⟩ := by
            simp [PoolRun.act, PoolRun.start, hip, ht]
          cases ha : bf.Add ip with
          | none =>
            refine ⟨[0, 0], ?_⟩
            have hact2 : (⟨bf, [⟨some ip, rest⟩]⟩ : PoolRun).act 0 = none := by
              simp [PoolRun.act, ha]
            simp [PoolRun.schedule, hact, hact2, processLines, hip, testThenAdd, ht, ha]
          | some bf' =>
            obtain ⟨sched, hs⟩ := ih bf'
            refine ⟨0 :: 0 :: sched, ?_⟩
            have hact2 : (⟨bf, [⟨some ip, rest⟩]⟩ : PoolRun).act 0 =
                some (PoolRun.start bf' [rest]) := by
              simp [PoolRun.act, PoolRun.start, ha]
            simp only [PoolRun.schedule, hact, hact2, hs, processLines, hip, if_false,
              testThenAdd, ht, ha]

/-- C11, as the code has it: on a filter built by `NewBloomFilter`, for any number of
workers with any lines each, fewer than `2 ^ 64` of them non-empty, and any order of
the `Test` and `Add` calls of the workers, the run returns; if no key can be a false
positive (every key has a bit position that no other key is mapped to), then once
all workers are through `Count()` is at least the number `D` of distinct keys; and so
it is after a single worker has processed all lines in order. -/
theorem count_lower_bound (fa : FloatArith) (n : Nat) (p : Float64) (hasher : Option Hasher)
    (bf0 : BloomFilter) (h0 : NewBloomFilter fa n p hasher = .ok bf0)
    (lines : List (List Bytes))
    (hpriv : PrivateBits bf0.m bf0.hashes (keysOf lines))
    (hlen : (keysOf lines).length < uint64Size) (sched : List Nat) :
    (∃ st, (PoolRun.start bf0 lines).schedule sched = some st ∧
      (st.Finished → (keysOf lines).dedup.length ≤ st.bf.Count)) ∧
    (∀ todo, lines = [todo] →
      ∃ s, processLines bf0 todo = some s ∧ (keysOf lines).dedup.length ≤ s.Count) := by
  have hne : ∀ x ∈ keysOf lines, x.length ≠ 0 := by
    intro x hx
    simpa using (List.mem_filter.mp hx).2
  have hstart := start_inv fa n p hasher bf0 h0 lines
  constructor
  · obtain ⟨st, added, hst, inv⟩ :=
      schedule_inv bf0.m bf0.hashes (keysOf lines) hpriv hne hlen sched _ [] hstart
    exact ⟨st, hst, finished_count _ _ _ st added inv⟩
  · intro todo hlines
    obtain ⟨sched', hs'⟩ := single_worker todo bf0
    obtain ⟨st, added, hst, inv⟩ :=
      schedule_inv bf0.m bf0.hashes (keysOf lines) hpriv hne hlen sched' _ [] hstart
    rw [hlines, hs'] at hst
    cases hp : processLines bf0 todo with
    | none => rw [hp] at hst; cases hst
    | some s =>
      rw [hp] at hst
      simp only [Option.map_some', Option.some.injEq] at hst
      refine ⟨s, rfl, ?_⟩
      have hfin : st.Finished := by
        rw [← hst]
        intro task ht
        simp only [PoolRun.start, List.map_cons, List.map_nil, List.mem_singleton] at ht
        rw [ht]
        exact ⟨rfl, rfl⟩
      have := finished_count _ _ _ st added inv hfin
      rw [← hst] at this
      exact this

/-- Witness of C11: two workers on the example filter, one key each, taking turns. -/
theorem count_lower_bound_witness :
    NewBloomFilter sampleArith 10 fpRateMilli (some sumHasher) = .ok sampleFilter ∧
      PrivateBits sampleFilter.m sampleFilter.hashes (keysOf [[[49]], [[50]]]) ∧
      (keysOf [[[49]], [[50]]]).length < uint64Size ∧
      (∃ st, (PoolRun.start sampleFilter [[[49]], [[50]]]).schedule [0, 1, 0, 1] = some st ∧
        (st.Finished → (keysOf [[[49]], [[50]]]).dedup.length ≤ st.bf.Count)) ∧
      (∀ todo, [[[49]], [[50]]] = [todo] →
        ∃ s, processLines sampleFilter todo = some s ∧
          (keysOf [[[49]], [[50]]]).dedup.length ≤ s.Count) :=
  have hpriv : PrivateBits sampleFilter.m sampleFilter.hashes (keysOf [[[49]], [[50]]]) := by
    unfold PrivateBits
    decide
  ⟨rfl, hpriv, by decide,
    count_lower_bound sampleArith 10 fpRateMilli (some sumHasher) sampleFilter rfl
      [[[49]], [[50]]] hpriv (by decide) [0, 1, 0, 1]⟩

/-- The guarded step keeps `m` and the hash functions. -/
theorem testThenAdd_shape (bf s : BloomFilter) (x : Bytes) (h : testThenAdd bf x = some s) :
    s.m = bf.m ∧ s.hashes = bf.hashes := by
  unfold testThenAdd at h
  cases ht : bf.Test x with
  | none => rw [ht] at h; cases h
  | some b =>
    rw [ht] at h
    cases b with
    | true => cases h; exact ⟨rfl, rfl⟩
    | false =>
      simp only at h
      unfold BloomFilter.Add at h
      cases ha : addLoop bf.m x bf.hashes bf.bitSet with
      | none => rw [ha] at h; cases h
      | some bits => rw [ha] at h; cases h; exact ⟨rfl, rfl⟩

/-- On a filter of one bit the second of two keys is a false positive: after the
guarded steps on two keys `Count()` is below 2, whatever the hash functions. -/
theorem one_bit_filter_count (bf : BloomFilter) (hwf : bf.WF) (hm : bf.m = 1)
    (hzero : bf.count = 0) (x y : Bytes) (hx : x.length ≠ 0) (hy : y.length ≠ 0) :
    ∃ s, processLines bf [x, y] = some s ∧ s.Count < 2 := by
  obtain ⟨s1, h1, hwf1, _, hcov, hcnt, _⟩ := testThenAdd_spec bf hwf x
  obtain ⟨hm1, _⟩ := testThenAdd_shape bf s1 x h1
  have hcovy : s1.covers y := by
    intro h hh
    have := hcov h hh
    rw [hm1, hm] at this ⊢
    simpa [bitPos, Nat.mod_one] using this
  obtain ⟨s2, h2, _, _, _, _, hsame⟩ := testThenAdd_spec s1 hwf1 y
  rw [hsame hcovy] at h2
  refine ⟨s1, by simp [processLines, hx, hy, h1, h2], ?_⟩
  show s1.count < 2
  omega

/-- C11 as stated fails, for every hash family: `NewBloomFilter` for 1 element at the
rate 0.75 builds a filter of one bit, and of the two distinct keys `a` and `b` the
second tests true, so that a single worker ends with `Count()` below `D = 2`. -/
theorem false_positive_undercounts :
    ([97] : Bytes) ≠ [98] ∧
      ∀ hasher : Hasher, ∃ bf0 s,
        NewBloomFilter tinyArith 1 (Float64.finite 3 (-2)) (some hasher) = .ok bf0 ∧
          bf0.m = 1 ∧ processLines bf0 [[97], [98]] = some s ∧ s.Count < 2 := by
  refine ⟨by decide, ?_⟩
  intro hasher
  have hnew : NewBloomFilter tinyArith 1 (Float64.finite 3 (-2)) (some hasher) =
      .ok ⟨[false], 1, 1, 0, hasher 1⟩ := by
    have h1 : ((Float64.finite 3 (-2)).le Float64.zero ||
        (Float64.finite 3 (-2)).ge Float64.one) = false := by decide
    have h2 : getOptimalParams tinyArith 1 (Float64.finite 3 (-2)) = (1, 1) := by decide
    simp only [NewBloomFilter, h1, h2]
    rfl
  obtain ⟨hwf, hzero⟩ := NewBloomFilter_wf _ _ _ _ _ hnew
  obtain ⟨s, hs, hcount⟩ := one_bit_filter_count _ hwf rfl hzero [97] [98] (by decide) (by decide)
  exact ⟨_, s, hnew, rfl, hs, hcount⟩

/-- The stand-in used above is exact: over the reals the sizing for 1 element at the
rate 0.75 is one bit and one hash function. -/
theorem tinyArith_exact : tinyArith.ExactAt 1 3 (-2) 1 := by
  have hL0 := Real.log_two_gt_d9
  have hL1 := Real.log_two_lt_d9
  have hpos : 0 < Real.log 2 := Real.log_pos (by norm_num)
  have hsq0 : (0.6931471803 : ℝ) ^ 2 < Real.log 2 ^ 2 :=
    pow_lt_pow_left₀ hL0 (by norm_num) (by norm_num)
  have hsqpos : 0 < Real.log 2 ^ 2 := by positivity
  have hc : ((3 : Int) : ℝ) * (2 : ℝ) ^ (-2 : Int) = (4 / 3 : ℝ)⁻¹ := by
    norm_num [zpow_neg]
  have hup : Real.log (4 / 3 : ℝ) ≤ 4 / 3 - 1 := Real.log_le_sub_one_of_pos (by norm_num)
  have hlow : 0 < Real.log (4 / 3 : ℝ) := Real.log_pos (by norm_num)
  constructor
  · show (1 : Nat) = _
    symm
    rw [hc, Real.log_inv, Nat.ceil_eq_iff (by decide)]
    constructor
    · rw [lt_div_iff₀ hsqpos]
      norm_num
      exact hlow
    · rw [div_le_iff₀ hsqpos]
      norm_num at hsq0 hup ⊢
      nlinarith
  · show (1 : Nat) = _
    symm
    rw [Nat.ceil_eq_iff (by decide)]
    constructor
    · norm_num; exact hpos
    · norm_num; linarith

end BFile
